import Mathlib

/-!
# Verification of the `jsonld-vocab` schema/instance modeling layer

This file gives a shallow embedding, in Lean 4, of the core data model and
operations of the `jsonld-vocab` library (identifier resolution, the JSON-LD
term context, class hierarchy traversal, property domain/range management,
instance class membership, vocabulary registries, and document-level
reachability-based cascading removal), together with theorems settling the
behavioral claims about that code.

Conventions used throughout:

* TypeScript `Map`s keyed by string ids are embedded as insertion-ordered
  association lists; `Set`s of ids as lists of ids.
* Methods that can `throw` are embedded as functions into `Except VocabError _`;
  a thrown error corresponds to an `.error` result produced before any state
  mutation that textually follows the `throw` in the source, so an `.error`
  result always denotes an unchanged state.
* The external graph store (`jsonld-graph`, consumed but not implemented by the
  library) is embedded by explicit vertex/edge/attribute fields on the state
  records, following the store interface the library relies on: `setOutgoing`
  adds a labeled edge, `removeOutgoing`/`removeIncoming` filter edges,
  `removeVertex` deletes a vertex and its incident edges, `setType`/`removeType`
  maintain a set of type ids per vertex.
* The lazy generator-based hierarchy traversals (`ancestors`, `descendants`,
  `properties`) recurse through the graph; they are embedded with an explicit
  fuel parameter bounding the recursion depth.  For an acyclic `subClassOf`
  relation the generators terminate and every element they yield appears at
  some finite fuel, so membership in the generated sequence coincides with
  membership at some fuel (`∃ n, _ ∈ _ n _`).
-/

namespace JsonldVocab

/-- Errors thrown by the library (`src/src/errors.ts`), plus the plain
JavaScript `ReferenceError` used for argument-contract violations. -/
inductive VocabError where
  | referenceError (msg : String)
  | contextSyntaxError (msg : String)
  | duplicateResourceError (id : String)
  | duplicateContextTermError (term : String)
  | duplicateInstanceError (id : String)
  | invalidInstanceIdError (id : String)
  | invalidOperationError (operation id resourceType : String)
  | invalidResourceIdError (id : String)
  | instanceClassRequiredError (id : String)
  | instancePropertyValueError (id propertyId : String)
  | instanceNotFoundError (id : String)
  | resourceNotFoundError (id resourceType : String)
  | resourceTypeMismatchError (id expectedType actualType : String)
  | unsupportedResourceTypeError (id : String)
  deriving DecidableEq, Repr

/-! ## Identifier resolution (`src/src/id.ts`) -/

/-- `[a-zA-Z]`: ASCII letter, as used by `resourceIdPattern`. -/
def isAsciiAlpha (c : Char) : Bool :=
  (('a' ≤ c) && (c ≤ 'z')) || (('A' ≤ c) && (c ≤ 'Z'))

/-- `[a-zA-Z0-9]`: ASCII letter or digit, as used by `resourceIdPattern`. -/
def isAsciiAlphaNum (c : Char) : Bool :=
  isAsciiAlpha c || (('0' ≤ c) && (c ≤ '9'))

/-- `[a-zA-Z0-9_//:]`: the interior character class of `resourceIdPattern`
(the doubled `/` in the source regex denotes the single character `/`). -/
def isIdInterior (c : Char) : Bool :=
  isAsciiAlphaNum c || c = '_' || c = '/' || c = ':'

/-- Matcher for the tail of `resourceIdPattern` after the leading letter:
zero or more interior characters followed by a final `[a-zA-Z0-9]`. -/
def idPatternTail : List Char → Bool
  | [] => false
  | [c] => isAsciiAlphaNum c
  | c :: rest => isIdInterior c && idPatternTail rest

/-- `resourceIdPattern = /^[a-zA-Z][a-zA-Z0-9_//:]*[a-zA-Z0-9]$/`
(`src/src/id.ts` line 4).  A string matches iff it starts with a letter and
continues with interior characters ending in a letter or digit (so a match is
at least two characters long). -/
def resourceIdPattern (s : String) : Bool :=
  match s.data with
  | [] => false
  | c :: rest => isAsciiAlpha c && idPatternTail rest

/-- JavaScript `s.startsWith(p)`, expressed over the character list so that
it evaluates by kernel reduction. -/
def strStarts (s p : String) : Bool :=
  p.data.isPrefixOf s.data

/-- Drop the first `n` characters of a string (the JavaScript
`replace(prefix, '')` under a `startsWith(prefix)` guard), expressed over the
character list. -/
def strDrop (s : String) (n : Nat) : String :=
  String.mk (s.data.drop n)

/-- `id.startsWith('vocab:') ? id.replace('vocab:', '') : id` — strips a
leading `vocab:` prefix (JavaScript `replace` with a string pattern replaces
the first occurrence, which under the `startsWith` guard is at position 0). -/
def stripVocab (s : String) : String :=
  if strStarts s "vocab:" then strDrop s 6 else s

/-- Modelled from the spec: the external `uri-js` parser's scheme detection
(`urijs.parse(id, { iri: true }); parsed.scheme`), per RFC 3986: a scheme is a
leading letter followed by letters, digits, `+`, `-` or `.`, terminated by a
colon. -/
def isSchemeChar (c : Char) : Bool :=
  isAsciiAlphaNum c || c = '+' || c = '-' || c = '.'

/-- Modelled from the spec: whether `urijs.parse` finds a URI scheme in the
id, i.e. whether the id has a well-formed scheme prefix before a colon. -/
def hasScheme (s : String) : Bool :=
  let pre := s.data.takeWhile (· ≠ ':')
  pre.length < s.data.length &&
    (match pre with
     | [] => false
     | c :: rest => isAsciiAlpha c && rest.all isSchemeChar)

/-- `Id.validateResourceId` (`src/src/id.ts` lines 59–67): throws a
`ReferenceError` on an empty id, `InvalidResourceIdError` when the id does not
match `resourceIdPattern`. -/
def validateResourceId (id : String) : Except VocabError Unit :=
  if id = "" then .error (.referenceError "Invalid id")
  else if resourceIdPattern id then .ok ()
  else .error (.invalidResourceIdError id)

/-- The non-validating core of `Id.expand` (`src/src/id.ts` lines 24–31):
a schemeless id is prefixed with `vocab:`; an id starting with the
vocabulary base is rewritten to the `vocab:` prefix; anything else is
returned unchanged.  Total function used at the many call sites that pass
`validate = false` and a non-empty id. -/
def expandS (id base : String) : String :=
  if ¬ hasScheme id then "vocab:" ++ id
  else if strStarts id base then "vocab:" ++ strDrop id base.data.length
  else id

/-- `Id.expand(id, base, validate)` (`src/src/id.ts` lines 14–32): rejects an
empty id with a `ReferenceError`; when `validate` is set and the id does not
start with `xsd:`, validates the id after stripping a leading `vocab:`
prefix; then expands. -/
def Id.expand (id base : String) (validate : Bool := false) : Except VocabError String :=
  if id = "" then .error (.referenceError "Invalid id")
  else do
    if ¬ strStarts id "xsd:" && validate then
      validateResourceId (stripVocab id)
    pure (expandS id base)

/-- The non-throwing core of `Id.compact` (`src/src/id.ts` lines 45–51):
strips a leading `vocab:` prefix, else a leading base prefix, else returns
the id unchanged. -/
def compactS (id base : String) : String :=
  if strStarts id "vocab:" then strDrop id 6
  else if strStarts id base then strDrop id base.data.length
  else id

/-- `Id.compact(id, base)` (`src/src/id.ts` lines 40–52): `ReferenceError` on
an empty id, else `compactS`. -/
def Id.compact (id base : String) : Except VocabError String :=
  if id = "" then .error (.referenceError "Invalid id")
  else .ok (compactS id base)

/-- The one-argument `id.compact(vertexId)` call used by the `Resource.id`
getter (`src/src/resource.ts` line 25): with `base` left `undefined`,
`startsWith(base)` is false, so only the `vocab:` prefix is stripped. -/
def compactV (id : String) : String :=
  if strStarts id "vocab:" then strDrop id 6 else id

/-- The one-argument `id.expand(value)` call used by the `Resource.id`
setter (`src/src/resource.ts` line 33): with `base` left `undefined`, neither
the base rewrite nor validation applies; a schemeless id is prefixed with
`vocab:`. -/
def expandNoBase (id : String) : String :=
  if ¬ hasScheme id then "vocab:" ++ id else id

/-- The grammar that claim C9 attributes to the id validator, following the
claim's words: first and last character alphanumeric, interior characters
limited to alphanumerics, underscore, slash and colon.  Stated separately
from `resourceIdPattern` (which is translated from the source regex) so the
two can be compared. -/
def claimedIdGrammar (s : String) : Bool :=
  match s.data with
  | [] => false
  | [c] => isAsciiAlphaNum c
  | c :: rest =>
    isAsciiAlphaNum c &&
    (rest.dropLast.all isIdInterior) &&
    (match rest.getLast? with
     | some d => isAsciiAlphaNum d
     | none => false)

/-- The grammar `resourceIdPattern` actually enforces, stated declaratively:
a leading ASCII letter (not an arbitrary alphanumeric), interior characters
among alphanumerics, `_`, `/`, `:` (the colon is allowed in every id, not
only URN-style ids), a final alphanumeric, and hence at least two characters
in total. -/
def amendedIdGrammar (s : String) : Bool :=
  match s.data with
  | [] => false
  | [_] => false
  | c :: rest =>
    isAsciiAlpha c &&
    (rest.dropLast.all isIdInterior) &&
    (match rest.getLast? with
     | some d => isAsciiAlphaNum d
     | none => false)

theorem idPatternTail_eq (l : List Char) :
    idPatternTail l =
      ((l.dropLast.all isIdInterior) &&
        (match l.getLast? with
         | some d => isAsciiAlphaNum d
         | none => false)) := by
  induction l with
  | nil => rfl
  | cons c rest ih =>
    cases rest with
    | nil => simp [idPatternTail]
    | cons c2 rest2 =>
      simp only [idPatternTail, ih, List.dropLast_cons₂, List.getLast?_cons_cons,
        List.all_cons, Bool.and_assoc]

deriving instance DecidableEq for Except

theorem resourceIdPattern_eq_amended (s : String) :
    resourceIdPattern s = amendedIdGrammar s := by
  unfold resourceIdPattern amendedIdGrammar
  match s.data with
  | [] => rfl
  | [c] => simp [idPatternTail]
  | c :: c2 :: rest => simp only [idPatternTail_eq, Bool.and_assoc]

/-- Claim C9, counterexample: the id `"0a"` matches the grammar the claim
describes (first and last character alphanumeric), yet `Id.expand` with
validation rejects it with `InvalidResourceIdError`, because the source regex
requires the first character to be a letter. -/
theorem c9_counterexample :
    claimedIdGrammar "0a" = true ∧
    Id.expand "0a" "http://example.org/" true = .error (.invalidResourceIdError "0a") :=
  ⟨by decide, by decide⟩

/-- Claim C9 (corrected): when `expand` is called with `validate` set, for
every non-`xsd:`-prefixed id (and after stripping a leading `vocab:` prefix),
it accepts exactly the ids matching the grammar actually enforced by
`resourceIdPattern` — a leading ASCII letter, interior characters among
alphanumerics, underscore, slash and colon, a final alphanumeric (hence at
least two characters) — and throws `InvalidResourceIdError` for every id that
violates that grammar. -/
theorem c9_amended (id base : String) (h1 : id ≠ "") (h2 : strStarts id "xsd:" = false)
    (h3 : stripVocab id ≠ "") :
    (amendedIdGrammar (stripVocab id) = true → Id.expand id base true = .ok (expandS id base)) ∧
    (amendedIdGrammar (stripVocab id) = false →
      Id.expand id base true = .error (.invalidResourceIdError (stripVocab id))) := by
  unfold Id.expand validateResourceId
  rw [← resourceIdPattern_eq_amended]
  simp only [h1, h2, if_neg h1, Bool.not_false, Bool.true_and, if_pos, if_neg h3]
  constructor <;> intro h <;> simp [h, h3]

/-- Witness for `c9_amended` at the concrete ids `"Person"` (accepted) and
`"vocab:_x"` (rejected: leading underscore after stripping the prefix). -/
theorem c9_witness :
    (Id.expand "Person" "b" true = .ok (expandS "Person" "b")) ∧
    (Id.expand "vocab:_x" "b" true = .error (.invalidResourceIdError "_x")) :=
  ⟨(c9_amended "Person" "b" (by decide) (by decide) (by decide)).1 (by decide),
   (c9_amended "vocab:_x" "b" (by decide) (by decide) (by decide)).2 (by decide)⟩

/-! ## The JSON-LD term context (`src/src/context.ts`, `Context`)

`Context` keeps `_terms: Map<string, ContextTerm>`, embedded as an
insertion-ordered association list.  `setTerm`/`_setTerm`, `getTerm`,
`isDefined`, `removeTerm` and `resolveTerm` are translated below; term
definitions are mutable objects in the source, so an in-place id rewrite is
embedded as an update of the list entry holding that definition. -/

/-- `ContextTerm` (`src/src/context.ts`): a term definition `{id, type?,
container?}`. -/
structure ContextTerm where
  id : String
  type : Option String := none
  container : Option String := none
  deriving DecidableEq, Repr

/-- The `_terms` map of a `Context`: term key → definition, in insertion
order. -/
abbrev Ctx := List (String × ContextTerm)

/-- `Context.getTerm(term)`: direct map lookup. -/
def getTerm (ctx : Ctx) (term : String) : Option ContextTerm :=
  (ctx.find? (fun e => e.1 = term)).map (·.2)

/-- `Context.isDefined(term)`: key membership. -/
def isDefined (ctx : Ctx) (term : String) : Bool :=
  ctx.any (fun e => e.1 = term)

/-- `Context.resolveTerm(id)`: compacts the id and returns the first
`(term, definition)` entry whose definition id equals the compacted id. -/
def resolveTerm (ctx : Ctx) (base id : String) : Option (String × ContextTerm) :=
  ctx.find? (fun e => e.2.id = compactS id base)

/-- `Context.removeTerm(term)`: deletes the entry. -/
def removeTerm (ctx : Ctx) (term : String) : Ctx :=
  ctx.filter (fun e => e.1 ≠ term)

/-- `Context._setTerm(term, id)` (`src/src/context.ts`; identical logic to the
public `setTerm` of the earlier `Context`): rejects falsy arguments with a
`ReferenceError` and an already-defined term with `DuplicateContextTermError`;
when the id already resolves to another term, rewrites that definition's id to
the compacted id and moves the definition under the new term key (a JavaScript
`Map.set` of a fresh key appends at the end; the old key is then deleted);
otherwise inserts a fresh definition carrying the raw id. -/
def setTerm (base : String) (ctx : Ctx) (term id : String) : Except VocabError Ctx :=
  if term = "" then .error (.referenceError "Invalid term")
  else if id = "" then .error (.referenceError "Invalid id")
  else if isDefined ctx term then .error (.duplicateContextTermError term)
  else
    let compactId := compactS id base
    match resolveTerm ctx base id with
    | some (oldTerm, defn) =>
      .ok ((ctx.filter (fun e => e.1 ≠ oldTerm)) ++ [(term, { defn with id := compactId })])
    | none =>
      .ok (ctx ++ [(term, { id := id })])

/-- `Vocabulary._onVertexIdChange(vertex, previousId)` (`src/src/vocabulary.ts`
lines 640–647): when a class or property vertex is renamed, resolves the term
mapped to the previous id and, if found, rewrites that definition's id to the
compacted new vertex id (an in-place mutation of the definition object held by
the map). -/
def onVertexIdChange (base : String) (ctx : Ctx) (isClassOrProp : Bool)
    (newVertexId previousId : String) : Ctx :=
  if isClassOrProp then
    match resolveTerm ctx base previousId with
    | some (term, defn) =>
      ctx.map (fun e => if e.1 = term then (term, { defn with id := compactS newVertexId base }) else e)
    | none => ctx
  else ctx

/-- The state a `Resource.id` setter acts on: the backing vertex id, the
vocabulary's term context, the registered resource ids (for the duplicate
check) and whether the vertex is typed `rdfs:Class`/`rdf:Property`. -/
structure RenameState where
  base : String
  vertexId : String
  ctx : Ctx
  resourceIds : List String
  isClassOrProp : Bool
  deriving DecidableEq, Repr

/-- The `Resource.id` setter (`src/src/resource.ts` lines 32–43): expands the
new value (one-argument `id.expand`, so no base rewrite), no-ops when the id
is unchanged, throws `DuplicateResourceError` when another resource holds the
expanded id, else assigns the vertex id — which emits the store's
`vertexIdChanged` notification, handled by `Vocabulary._onVertexIdChange`. -/
def resourceSetId (s : RenameState) (value : String) : Except VocabError RenameState :=
  let expandedId := expandNoBase value
  if s.vertexId = expandedId then .ok s
  else if s.resourceIds.contains (expandS expandedId s.base) then
    .error (.duplicateResourceError value)
  else
    .ok { s with
      vertexId := expandedId,
      ctx := onVertexIdChange s.base s.ctx s.isClassOrProp expandedId s.vertexId }

/-! ## Sequences of context operations (for the one-term-per-id invariant) -/

/-- A context mutation: a `setTerm` call or a `removeTerm` call. -/
inductive CtxOp where
  | set (term id : String)
  | remove (term : String)
  deriving DecidableEq, Repr

/-- Apply one context operation; a thrown `setTerm` leaves the context
unchanged (the source throws before any mutation). -/
def applyCtxOp (base : String) (ctx : Ctx) : CtxOp → Ctx
  | .set t i =>
    match setTerm base ctx t i with
    | .ok ctx' => ctx'
    | .error _ => ctx
  | .remove t => removeTerm ctx t

/-- Run a sequence of context operations. -/
def runCtxOps (base : String) (ctx : Ctx) (ops : List CtxOp) : Ctx :=
  ops.foldl (applyCtxOp base) ctx

/-- Invariant of a term context under compact-form ids: every stored
definition id is in compact form, term keys are pairwise distinct, and
definition ids are pairwise distinct. -/
def CtxInv (base : String) (ctx : Ctx) : Prop :=
  (∀ e ∈ ctx, compactS e.2.id base = e.2.id) ∧
  (ctx.map Prod.fst).Nodup ∧
  (ctx.map (fun e => e.2.id)).Nodup

theorem ctxInv_applyCtxOp (base : String) (ctx : Ctx) (op : CtxOp)
    (hop : ∀ t i, op = .set t i → compactS i base = i)
    (hinv : CtxInv base ctx) : CtxInv base (applyCtxOp base ctx op) := by
  obtain ⟨hc, hk, hi⟩ := hinv
  cases op with
  | remove t =>
    refine ⟨fun e he => hc e (List.mem_of_mem_filter he), ?_, ?_⟩
    · exact List.Nodup.sublist (List.Sublist.map _ (List.filter_sublist _)) hk
    · exact List.Nodup.sublist (List.Sublist.map _ (List.filter_sublist _)) hi
  | set t i =>
    have hci : compactS i base = i := hop t i rfl
    unfold applyCtxOp setTerm
    by_cases ht : t = ""
    · simp only [ht, if_pos rfl]; exact ⟨hc, hk, hi⟩
    by_cases hi0 : i = ""
    · simp only [ht, hi0, if_neg, if_pos rfl, reduceIte]; exact ⟨hc, hk, hi⟩
    by_cases hd : isDefined ctx t
    · simp only [ht, hi0, hd, reduceIte]; exact ⟨hc, hk, hi⟩
    · have htk : t ∉ ctx.map Prod.fst := by
        intro hmem
        obtain ⟨e, he, hke⟩ := List.mem_map.mp hmem
        exact hd (List.any_eq_true.mpr ⟨e, he, by simp [hke]⟩)
      cases hres : resolveTerm ctx base i with
      | some p =>
        obtain ⟨oldTerm, defn⟩ := p
        simp only [ht, hi0, hd, hres, Bool.false_eq_true, reduceIte]
        have hmem : (oldTerm, defn) ∈ ctx := List.mem_of_find?_eq_some hres
        have hdefid : defn.id = compactS i base := by
          have := List.find?_some hres
          simpa using this
        constructor
        · intro e he
          rcases List.mem_append.mp he with h1 | h2
          · exact hc e (List.mem_of_mem_filter h1)
          · simp at h2
            subst h2
            simp [hci]
        constructor
        · rw [List.map_append, List.nodup_append]
          refine ⟨List.Nodup.sublist (List.Sublist.map _ (List.filter_sublist _)) hk, by simp, ?_⟩
          intro a ha hb
          simp at hb
          subst hb
          obtain ⟨e, he, hke⟩ := List.mem_map.mp ha
          exact htk (hke ▸ List.mem_map_of_mem Prod.fst (List.mem_of_mem_filter he))
        · rw [List.map_append, List.nodup_append]
          refine ⟨List.Nodup.sublist (List.Sublist.map _ (List.filter_sublist _)) hi, by simp, ?_⟩
          intro a ha hb
          simp at hb
          subst hb
          obtain ⟨e, he, hke⟩ := List.mem_map.mp ha
          have heo : e.1 ≠ oldTerm := by
            have := List.of_mem_filter he
            simpa using this
          have hectx : e ∈ ctx := List.mem_of_mem_filter he
          have : e = (oldTerm, defn) := by
            apply List.inj_on_of_nodup_map hi hectx hmem
            simp [hke, hdefid, hci]
          exact heo (by rw [this])
      | none =>
        simp only [ht, hi0, hd, hres, Bool.false_eq_true, reduceIte]
        have hno : ∀ e ∈ ctx, e.2.id ≠ compactS i base :=
          fun e he => by simpa using (List.find?_eq_none.mp hres) e he
        constructor
        · intro e he
          rcases List.mem_append.mp he with h1 | h2
          · exact hc e h1
          · simp at h2; subst h2; simp [hci]
        constructor
        · rw [List.map_append, List.nodup_append]
          exact ⟨hk, by simp, fun a ha hb => by simp at hb; subst hb; exact htk ha⟩
        · rw [List.map_append, List.nodup_append]
          refine ⟨hi, by simp, fun a ha hb => ?_⟩
          simp only [List.map_cons, List.map_nil, List.mem_singleton] at hb
          subst hb
          obtain ⟨e, he, hke⟩ := List.mem_map.mp ha
          exact hno e he (by rw [hke, hci])

theorem getTerm_append_fresh (l : List (String × ContextTerm)) (term : String) (d : ContextTerm)
    (h : ∀ e ∈ l, e.1 ≠ term) : getTerm (l ++ [(term, d)]) term = some d := by
  induction l with
  | nil => simp [getTerm, List.find?]
  | cons e rest ih =>
    have hne : e.1 ≠ term := h e (by simp)
    simp only [List.cons_append, getTerm]
    rw [List.find?_cons_of_neg _ (by simpa using hne)]
    exact ih fun e' he' => h e' (by simp [he'])

theorem getTerm_append_none (l : List (String × ContextTerm)) (x : String × ContextTerm)
    (term : String) (h : ∀ e ∈ l, e.1 ≠ term) (hx : x.1 ≠ term) :
    getTerm (l ++ [x]) term = none := by
  induction l with
  | nil => simp [getTerm, List.find?, hx]
  | cons e rest ih =>
    have hne : e.1 ≠ term := h e (by simp)
    simp only [List.cons_append, getTerm]
    rw [List.find?_cons_of_neg _ (by simpa using hne)]
    exact ih fun e' he' => h e' (by simp [he'])

/-- Claim C6, counterexample: the one-term-per-id invariant is violated when
an id is passed in non-compact form.  `setTerm("a", "vocab:Person")` stores the
raw id `vocab:Person`; a subsequent `setTerm("b", "Person")` compacts its
argument to `Person`, fails to resolve it against the stored raw id, and
inserts a second term — leaving two distinct terms `a` and `b` whose
definition ids compact to the same id `Person`. -/
theorem c6_counterexample :
    (do
        let c1 ← setTerm "http://example.org/" [] "a" "vocab:Person"
        setTerm "http://example.org/" c1 "b" "Person") =
      .ok [("a", ⟨"vocab:Person", none, none⟩), ("b", ⟨"Person", none, none⟩)] ∧
    ("a" : String) ≠ "b" ∧
    compactS "vocab:Person" "http://example.org/" = compactS "Person" "http://example.org/" :=
  ⟨by decide, by decide, by decide⟩

/-- Claim C6 (corrected): `setTerm(term, id)` throws
`DuplicateContextTermError` when `term` is already defined; when `id` already
resolves to a different term, it moves that term's definition (type and
container fields intact, id rewritten to the compacted id) under the new term
key and deletes the old key; and the one-term-per-id invariant — no two
distinct terms share the same compacted id — holds after any sequence of
`setTerm`/`removeTerm` operations provided every id passed to `setTerm` is
already in compact form (for a non-compact id the fresh-insert branch stores
the raw id, which a later compact-form insert does not resolve, so the
invariant can be violated — see the counterexample). -/
theorem c6_amended (base : String) :
    (∀ ctx term id, term ≠ "" → id ≠ "" → isDefined ctx term = true →
        setTerm base ctx term id = .error (.duplicateContextTermError term)) ∧
    (∀ ctx term id oldTerm defn, term ≠ "" → id ≠ "" → isDefined ctx term = false →
        resolveTerm ctx base id = some (oldTerm, defn) →
        ∃ ctx', setTerm base ctx term id = .ok ctx' ∧
          getTerm ctx' term = some { defn with id := compactS id base } ∧
          getTerm ctx' oldTerm = none) ∧
    (∀ ops ctx, (∀ t i, CtxOp.set t i ∈ ops → compactS i base = i) → CtxInv base ctx →
        ∀ e1 ∈ runCtxOps base ctx ops, ∀ e2 ∈ runCtxOps base ctx ops,
          e1.1 ≠ e2.1 → compactS e1.2.id base ≠ compactS e2.2.id base) := by
  refine ⟨?_, ?_, ?_⟩
  · intro ctx term id ht hi hd
    unfold setTerm
    simp [ht, hi, hd]
  · intro ctx term id oldTerm defn ht hi hd hres
    have hmem : (oldTerm, defn) ∈ ctx := List.mem_of_find?_eq_some hres
    have htm : term ∉ ctx.map Prod.fst := by
      intro hmm
      obtain ⟨e, he, hke⟩ := List.mem_map.mp hmm
      have : isDefined ctx term = true := List.any_eq_true.mpr ⟨e, he, by simp [hke]⟩
      simp [this] at hd
    have holdne : oldTerm ≠ term := by
      intro h
      exact htm (h ▸ List.mem_map_of_mem Prod.fst hmem)
    refine ⟨(ctx.filter (fun e => e.1 ≠ oldTerm)) ++
      [(term, { defn with id := compactS id base })], ?_, ?_, ?_⟩
    · unfold setTerm
      simp only [ht, hi, hd, hres, Bool.false_eq_true, reduceIte]
    · refine getTerm_append_fresh _ _ _ fun e he => ?_
      intro hke
      exact htm (hke ▸ List.mem_map_of_mem Prod.fst (List.mem_of_mem_filter he))
    · refine getTerm_append_none _ _ _ (fun e he => by
        have := List.of_mem_filter he
        simpa using this) (by simpa using fun h => holdne h.symm)
  · intro ops
    induction ops with
    | nil =>
      intro ctx _ hinv e1 h1 e2 h2 hne
      obtain ⟨hc, _, hids⟩ := hinv
      rw [hc e1 h1, hc e2 h2]
      intro heq
      exact hne (congrArg Prod.fst (List.inj_on_of_nodup_map hids h1 h2 heq))
    | cons op rest ih =>
      intro ctx hops hinv
      exact ih (applyCtxOp base ctx op)
        (fun t i hmem => hops t i (List.mem_cons_of_mem _ hmem))
        (ctxInv_applyCtxOp base ctx op (fun t i hop => hops t i (hop ▸ List.mem_cons_self _ _)) hinv)

/-- Witness for `c6_amended`: the duplicate-term rejection and the invariant
conclusion, at concrete terms and ids. -/
theorem c6_witness :
    setTerm "u" [("a", ⟨"X", none, none⟩)] "a" "Y" = .error (.duplicateContextTermError "a") ∧
    compactS "X" "u" ≠ compactS "Y" "u" := by
  constructor
  · exact (c6_amended "u").1 [("a", ⟨"X", none, none⟩)] "a" "Y"
      (by decide) (by decide) (by decide)
  · have h3 := (c6_amended "u").2.2 [.set "a" "X", .set "b" "Y"] []
      (by
        intro t i hmem
        simp only [List.mem_cons, List.not_mem_nil, or_false] at hmem
        rcases hmem with h | h <;> cases h <;> decide)
      ⟨by simp, by simp, by simp⟩
    exact h3 ("a", ⟨"X", none, none⟩) (by decide) ("b", ⟨"Y", none, none⟩) (by decide) (by decide)

theorem getTerm_map_update (ctx : Ctx) (term : String) (d : ContextTerm)
    (hmem : ∃ e ∈ ctx, e.1 = term) :
    getTerm (ctx.map (fun e => if e.1 = term then (term, d) else e)) term = some d := by
  induction ctx with
  | nil => simp at hmem
  | cons e rest ih =>
    by_cases h : e.1 = term
    · simp [getTerm, List.find?, h]
    · obtain ⟨e', he', hk⟩ := hmem
      rcases List.mem_cons.mp he' with rfl | hmem'
      · exact absurd hk h
      · have := ih ⟨e', hmem', hk⟩
        simpa [getTerm, List.find?, h] using this

/-- Claim C2 (confirmed): renaming a `Class` or `Property` through the
`Resource.id` setter preserves its term binding.  If `resolveTerm` maps the
resource's current vertex id to a term (the hypothesis the rename handler
itself acts on), and the rename goes through (the new id differs and does not
collide with a registered resource), then the setter succeeds, the vertex id
becomes the expanded new value, and looking the term up afterwards yields the
same definition with its id rewritten to the compacted form of the new
resource id. -/
theorem c2_theorem (s : RenameState) (value term : String) (defn : ContextTerm)
    (hcp : s.isClassOrProp = true)
    (hres : resolveTerm s.ctx s.base s.vertexId = some (term, defn))
    (hne : s.vertexId ≠ expandNoBase value)
    (hdup : s.resourceIds.contains (expandS (expandNoBase value) s.base) = false) :
    ∃ s', resourceSetId s value = .ok s' ∧
      s'.vertexId = expandNoBase value ∧
      getTerm s'.ctx term = some { defn with id := compactS s'.vertexId s.base } := by
  refine ⟨RenameState.mk s.base (expandNoBase value)
      (onVertexIdChange s.base s.ctx s.isClassOrProp (expandNoBase value) s.vertexId)
      s.resourceIds s.isClassOrProp, ?_, rfl, ?_⟩
  · unfold resourceSetId
    rw [if_neg hne]
    have hdup' : expandS (expandNoBase value) s.base ∉ s.resourceIds := by simpa using hdup
    simp [hdup']
  · show getTerm (onVertexIdChange s.base s.ctx s.isClassOrProp (expandNoBase value) s.vertexId)
      term = _
    unfold onVertexIdChange
    rw [hcp, if_pos rfl, hres]
    have hmem : (term, defn) ∈ s.ctx := List.mem_of_find?_eq_some hres
    exact getTerm_map_update s.ctx term _ ⟨(term, defn), hmem, rfl⟩

/-- The rename scenario of the spec: term `person` bound to id `Person` on a
class whose vertex id is `vocab:Person`. -/
def c2ex : RenameState :=
  ⟨"b", "vocab:Person", [("person", ⟨"Person", none, none⟩)], [], true⟩

/-- Witness for `c2_theorem`: renaming `Person` to `NewPerson` rewrites the
`person` term's id to `NewPerson`. -/
theorem c2_witness :
    resourceSetId c2ex "NewPerson" =
      .ok ⟨"b", "vocab:NewPerson", [("person", ⟨"NewPerson", none, none⟩)], [], true⟩ ∧
    getTerm [(("person" : String), (⟨"NewPerson", none, none⟩ : ContextTerm))] "person" =
      some ⟨"NewPerson", none, none⟩ := by
  obtain ⟨s', h1, h2, h3⟩ := c2_theorem c2ex "NewPerson" "person" ⟨"Person", none, none⟩
    rfl (by decide) (by decide) (by decide)
  have he : resourceSetId c2ex "NewPerson" =
      .ok ⟨"b", "vocab:NewPerson", [("person", ⟨"NewPerson", none, none⟩)], [], true⟩ := by decide
  exact ⟨he, by decide⟩

/-! ## Class hierarchy traversal (`src/src/class.ts`, `ancestors`/`descendants`)

`Class.ancestors` yields, for each parent (outgoing `rdfs:subClassOf` edge
target), that parent's ancestors followed by the parent itself;
`Class.descendants` mirrors it over incoming edges.  Both are embedded over
the edge list with a fuel bound on recursion depth (the generators recurse
without a visited set, so they terminate exactly when the edge relation is
acyclic; a sequence element appears at some finite fuel). -/

/-- subClassOf edges: (child vertex id, parent vertex id). -/
abbrev SubEdges := List (String × String)

def parentsOf (es : SubEdges) (c : String) : List String :=
  es.filterMap (fun e => if e.1 = c then some e.2 else none)

def childrenOf (es : SubEdges) (d : String) : List String :=
  es.filterMap (fun e => if e.2 = d then some e.1 else none)

def ancestorsF (es : SubEdges) : Nat → String → List String
  | 0, _ => []
  | n + 1, c => ((parentsOf es c).map (fun p => ancestorsF es n p ++ [p])).flatten

def descendantsF (es : SubEdges) : Nat → String → List String
  | 0, _ => []
  | n + 1, d => ((childrenOf es d).map (fun ch => descendantsF es n ch ++ [ch])).flatten

def pathUp (es : SubEdges) : Nat → String → String → Bool
  | 0, _, _ => false
  | n + 1, c, d => (es.contains (c, d)) || (parentsOf es c).any (fun p => pathUp es n p d)

theorem mem_parentsOf {es : SubEdges} {c p : String} :
    p ∈ parentsOf es c ↔ (c, p) ∈ es := by
  constructor
  · intro h
    obtain ⟨e, he, hf⟩ := List.mem_filterMap.mp h
    by_cases hc : e.1 = c
    · simp [hc] at hf
      cases e
      simp_all
    · simp [hc] at hf
  · intro h
    exact List.mem_filterMap.mpr ⟨(c, p), h, by simp⟩

theorem mem_childrenOf {es : SubEdges} {d ch : String} :
    ch ∈ childrenOf es d ↔ (ch, d) ∈ es := by
  constructor
  · intro h
    obtain ⟨e, he, hf⟩ := List.mem_filterMap.mp h
    by_cases hc : e.2 = d
    · simp [hc] at hf
      cases e
      simp_all
    · simp [hc] at hf
  · intro h
    exact List.mem_filterMap.mpr ⟨(ch, d), h, by simp⟩

theorem mem_ancestorsF {es : SubEdges} {n : Nat} {c d : String} :
    d ∈ ancestorsF es n c ↔ pathUp es n c d = true := by
  induction n generalizing c with
  | zero => simp [ancestorsF, pathUp]
  | succ n ih =>
    simp only [ancestorsF, pathUp, List.mem_flatten, List.mem_map, Bool.or_eq_true,
      List.contains_iff_exists_mem_beq, List.any_eq_true]
    constructor
    · rintro ⟨l, ⟨p, hp, rfl⟩, hd⟩
      rcases List.mem_append.mp hd with h1 | h2
      · exact Or.inr ⟨p, hp, ih.mp h1⟩
      · simp at h2
        subst h2
        exact Or.inl ⟨(c, d), mem_parentsOf.mp hp, by simp⟩
    · rintro (⟨e, he, hbeq⟩ | ⟨p, hp, hpath⟩)
      · have : e = (c, d) := by
          cases e
          have := hbeq
          simp only [beq_iff_eq, Prod.mk.injEq] at this
          simp [this.1, this.2]
        subst this
        exact ⟨ancestorsF es n d ++ [d], ⟨d, mem_parentsOf.mpr he, rfl⟩, by simp⟩
      · exact ⟨ancestorsF es n p ++ [p], ⟨p, hp, rfl⟩, List.mem_append.mpr (Or.inl (ih.mpr hpath))⟩



theorem pathUp_succ {es : SubEdges} {n : Nat} {c d : String} :
    pathUp es (n + 1) c d = true ↔
      ((c, d) ∈ es ∨ ∃ p ∈ parentsOf es c, pathUp es n p d = true) := by
  simp [pathUp]

theorem pathUp_snoc {es : SubEdges} {n : Nat} {c d : String} :
    pathUp es (n + 1) c d = true ↔
      ((c, d) ∈ es ∨ ∃ m, (m, d) ∈ es ∧ pathUp es n c m = true) := by
  induction n generalizing c with
  | zero =>
    rw [pathUp_succ]
    constructor
    · rintro (h | ⟨p, hp, hf⟩)
      · exact Or.inl h
      · simp [pathUp] at hf
    · rintro (h | ⟨m, hm, hf⟩)
      · exact Or.inl h
      · simp [pathUp] at hf
  | succ n ih =>
    constructor
    · intro h
      rcases pathUp_succ.mp h with h | ⟨p, hp, hpath⟩
      · exact Or.inl h
      · rcases ih.mp hpath with h1 | ⟨m, hm, hpath2⟩
        · exact Or.inr ⟨p, h1, pathUp_succ.mpr (Or.inl (mem_parentsOf.mp hp))⟩
        · exact Or.inr ⟨m, hm, pathUp_succ.mpr (Or.inr ⟨p, hp, hpath2⟩)⟩
    · rintro (h | ⟨m, hm, hpath⟩)
      · exact pathUp_succ.mpr (Or.inl h)
      · rcases pathUp_succ.mp hpath with h1 | ⟨p, hp, hpath2⟩
        · exact pathUp_succ.mpr (Or.inr ⟨m, mem_parentsOf.mpr h1, ih.mpr (Or.inl hm)⟩)
        · exact pathUp_succ.mpr (Or.inr ⟨p, hp, ih.mpr (Or.inr ⟨m, hm, hpath2⟩)⟩)

theorem mem_descendantsF {es : SubEdges} {n : Nat} {c d : String} :
    c ∈ descendantsF es n d ↔ pathUp es n c d = true := by
  induction n generalizing d with
  | zero => simp [descendantsF, pathUp]
  | succ n ih =>
    simp only [descendantsF, List.mem_flatten, List.mem_map]
    rw [pathUp_snoc]
    constructor
    · rintro ⟨l, ⟨ch, hch, rfl⟩, hc⟩
      rcases List.mem_append.mp hc with h1 | h2
      · exact Or.inr ⟨ch, mem_childrenOf.mp hch, ih.mp h1⟩
      · simp at h2
        subst h2
        exact Or.inl (mem_childrenOf.mp hch)
    · rintro (h | ⟨m, hm, hpath⟩)
      · exact ⟨descendantsF es n c ++ [c], ⟨c, mem_childrenOf.mpr h, rfl⟩, by simp⟩
      · exact ⟨descendantsF es n m ++ [m], ⟨m, mem_childrenOf.mpr hm, rfl⟩,
          List.mem_append.mpr (Or.inl (ih.mpr hpath))⟩

/-- Claim C8 (confirmed): hierarchy traversal is symmetric.  For every
`subClassOf` edge relation and every fuel bound, `D` occurs in the sequence
produced by `C.ancestors` iff `C` occurs in the sequence produced by
`D.descendants`; consequently the fuel-closure memberships (which, for an
acyclic relation, coincide with membership in the terminating generator
sequences) agree as well. -/
theorem c8_theorem (es : SubEdges) (c d : String) :
    (∀ n, (d ∈ ancestorsF es n c ↔ c ∈ descendantsF es n d)) ∧
    ((∃ n, d ∈ ancestorsF es n c) ↔ (∃ n, c ∈ descendantsF es n d)) := by
  have h : ∀ n, (d ∈ ancestorsF es n c ↔ c ∈ descendantsF es n d) := fun n =>
    mem_ancestorsF.trans mem_descendantsF.symm
  exact ⟨h, ⟨fun ⟨n, hn⟩ => ⟨n, (h n).mp hn⟩, fun ⟨n, hn⟩ => ⟨n, (h n).mpr hn⟩⟩⟩

/-! ## Vocabulary state (`src/src/vocabulary.ts`, `class.ts`, `property.ts`,
`instance.ts`)

The vocabulary's registries and the backing graph-store data the library
reads and writes.  A `Class` wrapper caches its own-property id set
(`_properties`, seeded from incoming `rdfs:domain` edges at construction and
maintained by `addProperty`/`createProperty`/`removeProperty` only); an
`Instance` wrapper caches its class map and property map.  Registry maps are
keyed by expanded ids. -/

/-- A registered `Class` wrapper: vertex id, vertex RDF types, and the
`_properties` own-property cache (expanded property ids). -/
structure ClassState where
  id : String
  rtypes : List String
  ownProps : List String
  deriving DecidableEq, Repr

/-- A registered `Instance` wrapper: vertex id, vertex type ids, the
instance vertex's outgoing edges `(label, target)` and literal attribute
keys, plus the `_classes` and `_properties` caches. -/
structure InstanceState where
  vid : String
  vtypes : List String
  outEdges : List (String × String)
  attrs : List String
  clsCache : List String
  propCache : List String
  deriving DecidableEq, Repr

/-- The ids of the built-in data types (`DataType.all()`,
`src/src/dataType.ts`). -/
def dataTypeAll : List String :=
  ["xsd:anyURI", "xsd:base64Binary", "xsd:boolean", "xsd:hexBinary", "xsd:gDay",
   "xsd:date", "xsd:dateTime", "xsd:decimal", "xsd:double", "xsd:duration",
   "xsd:float", "xsd:int", "xsd:integer", "xsd:long", "xsd:gMonth", "xsd:short",
   "xsd:string", "xsd:time", "xsd:year"]

/-- A `Vocabulary` together with the part of the graph store it owns:
class/property/instance registries, data type ids, and the `rdfs:domain`,
`rdfs:range` and `rdfs:subClassOf` edges. -/
structure VocabState where
  baseIri : String
  classes : List ClassState
  propIds : List String
  insts : List InstanceState
  dataTypeIds : List String
  domainEdges : List (String × String)
  rangeEdges : List (String × String)
  subEdges : SubEdges
  deriving DecidableEq, Repr

/-- `Vocabulary.getClass(id)`: registry lookup under the expanded id. -/
def getClassSt (st : VocabState) (id : String) : Option ClassState :=
  st.classes.find? (fun c => c.id = expandS id st.baseIri)

/-- `Vocabulary.hasResource(id)`: expanded id registered as a class or
property. -/
def hasResourceSt (st : VocabState) (id : String) : Bool :=
  let rid := expandS id st.baseIri
  st.classes.any (fun c => c.id = rid) || st.propIds.contains rid

/-- `Vocabulary.hasDataType(id)`: raw comparison against the data type ids
(no expansion in the source). -/
def hasDataTypeSt (st : VocabState) (id : String) : Bool :=
  st.dataTypeIds.contains id

/-- `Vocabulary.hasInstance(id)`: expanded id registered as an instance. -/
def hasInstanceSt (st : VocabState) (id : String) : Bool :=
  st.insts.any (fun i => i.vid = expandS id st.baseIri)

/-- `Vocabulary.createClass(id)` (`src/src/vocabulary.ts` lines 181–194)
followed by `Class.create` (`src/src/class.ts` lines 444–456): expands the
id, rejects a registered class id; `Class.create` expands with validation,
rejects an id registered as a resource, data type or instance, creates the
`rdfs:Class` vertex, and the `Class` constructor seeds the own-property cache
from incoming `rdfs:domain` edges. -/
def createClass (st : VocabState) (id : String) : Except VocabError VocabState :=
  if id = "" then .error (.referenceError "Invalid id")
  else do
    let classId ← Id.expand id st.baseIri
    if st.classes.any (fun c => c.id = classId) then
      .error (.duplicateResourceError id)
    else do
      let normalizedId ← Id.expand classId st.baseIri true
      if hasResourceSt st normalizedId || hasDataTypeSt st normalizedId
          || hasInstanceSt st normalizedId then
        .error (.duplicateResourceError classId)
      else
        let own := (st.domainEdges.filter (fun e => e.2 = normalizedId)).map (·.1)
        .ok { st with classes := st.classes ++ [⟨normalizedId, ["rdfs:Class"], own⟩] }

/-- `Vocabulary.createProperty(id)` (`src/src/vocabulary.ts` lines 249–262)
followed by `Property.create` (`src/src/property.ts` lines 237–250): expands
the id, rejects a registered property id; `Property.create` expands with
validation, rejects an id registered as a resource, data type or instance,
and creates the `rdf:Property` vertex. -/
def createProperty (st : VocabState) (id : String) : Except VocabError VocabState :=
  if id = "" then .error (.referenceError "Invalid id")
  else do
    let propertyId ← Id.expand id st.baseIri
    if st.propIds.contains propertyId then
      .error (.duplicateResourceError id)
    else do
      let expandedId ← Id.expand id st.baseIri true
      if hasResourceSt st expandedId || hasDataTypeSt st expandedId
          || hasInstanceSt st expandedId then
        .error (.duplicateResourceError id)
      else
        .ok { st with propIds := st.propIds ++ [propertyId] }

/-- A `string | Resource` argument: either a raw id string or a resolved
resource object whose `.id` getter returns the compacted vertex id. -/
inductive ResRef where
  | str (s : String)
  | res (vid : String)
  deriving DecidableEq, Repr

/-- Resolution of a `string | Resource` argument to an expanded resource id
(`typeof resource === 'string' ? Id.expand(resource, base, true)
: Id.expand(resource.id, base)`). -/
def refResourceId (st : VocabState) : ResRef → Except VocabError String
  | .str s => Id.expand s st.baseIri true
  | .res vid => Id.expand (compactV vid) st.baseIri

/-- `Property.setDomain(...resources)` (`src/src/property.ts` lines 115–137):
iterates the refs; a ref that does not resolve to a registered resource
throws `ResourceNotFoundError`; a ref whose expanded id is already a domain
edge target triggers the loop's bare `return`, ending the whole call with the
remaining refs unprocessed; otherwise the `rdfs:domain` edge is added. -/
def setDomain (st : VocabState) (pvid : String) : List ResRef → Except VocabError VocabState
  | [] => .ok st
  | r :: rest => do
    let resourceId ← refResourceId st r
    if ¬ hasResourceSt st resourceId then
      .error (.resourceNotFoundError resourceId "Resource")
    else if st.domainEdges.any (fun e => e.1 = pvid ∧ e.2 = resourceId) then
      .ok st
    else
      setDomain { st with domainEdges := st.domainEdges ++ [(pvid, resourceId)] } pvid rest

/-- `Property.setRange(...resources)` (`src/src/property.ts` lines 145–167):
same loop over `rdfs:range` edges, accepting data type ids as well. -/
def setRange (st : VocabState) (pvid : String) : List ResRef → Except VocabError VocabState
  | [] => .ok st
  | r :: rest => do
    let resourceId ← refResourceId st r
    if ¬ (hasResourceSt st resourceId || hasDataTypeSt st resourceId) then
      .error (.resourceNotFoundError resourceId "Resource")
    else if st.rangeEdges.any (fun e => e.1 = pvid ∧ e.2 = resourceId) then
      .ok st
    else
      setRange { st with rangeEdges := st.rangeEdges ++ [(pvid, resourceId)] } pvid rest

/-- Whether the class registered under `cid` holds `pid` in its own-property
cache. -/
def ownHas (st : VocabState) (cid pid : String) : Bool :=
  match st.classes.find? (fun c => c.id = cid) with
  | some c => c.ownProps.contains pid
  | none => false

/-- A `string | Property` argument (`PropertyReference`): a raw id string or
a `Property` object whose `.id` getter returns the compacted vertex id. -/
inductive PropRef where
  | str (s : String)
  | res (pvid : String)
  deriving DecidableEq, Repr

/-- `Class.hasProperty(property)` (`src/src/class.ts` lines 221–238): for a
string ref the id is expanded, for a `Property` object the compact `.id` is
used as-is; the own cache is checked first, then each ancestor is asked
recursively — the recursive calls pass the id string on, so ancestors check
their caches against the re-expanded id.  Because `ancestors` already yields
all transitive ancestors, the nested recursion is membership-equivalent to
one pass over the ancestor sequence, which is how it is written here. -/
def hasPropertySt (st : VocabState) (fuel : Nat) (cid : String) (property : PropRef) : Bool :=
  let propertyId := match property with
    | .str s => expandS s st.baseIri
    | .res pvid => compactV pvid
  ownHas st cid propertyId ||
    (ancestorsF st.subEdges fuel cid).any
      (fun a => ownHas st a (expandS propertyId st.baseIri))

/-- `Class.getProperty(id)` (`src/src/class.ts` lines 197–213): expands with
validation; returns the property when the own cache or, recursively, an
ancestor's lookup resolves it (all resolving paths return the vocabulary's
property under the same expanded id), else `undefined` (`none`). -/
def classGetProperty (st : VocabState) (fuel : Nat) (cid : String) (id : String) :
    Except VocabError (Option String) := do
  let propertyId ← Id.expand id st.baseIri true
  if ownHas st cid propertyId ∨
      (ancestorsF st.subEdges fuel cid).any (fun a => ownHas st a propertyId) then
    pure (some propertyId)
  else
    pure none

/-- `Property.removeDomain(resource)` with a `Class` object argument
(`src/src/property.ts` lines 174–185): removes the `rdfs:domain` edge from
the property vertex to the expanded resource id. -/
def removeDomain (st : VocabState) (pvid resourceVid : String) : VocabState :=
  let resourceId := expandS (compactV resourceVid) st.baseIri
  { st with domainEdges := st.domainEdges.filter (fun e => ¬ (e.1 = pvid ∧ e.2 = resourceId)) }

/-- The targets of a property's `rdfs:domain` edges (`Property.domains`). -/
def domainsOf (st : VocabState) (pvid : String) : List String :=
  (st.domainEdges.filter (fun e => e.1 = pvid)).map (·.2)

/-- `Vocabulary.removeProperty(property)` with a `Property` object argument
(`src/src/vocabulary.ts` lines 565–582): rejects a property that still has
domain edges with `InvalidOperationError`, else removes the vertex (with its
incident edges) and the registry entry. -/
def vocabRemoveProperty (st : VocabState) (pvid : String) : Except VocabError VocabState :=
  if (domainsOf st pvid).length > 0 then
    .error (.invalidOperationError "remove" (compactV pvid) "Property")
  else
    let propertyId := expandS (compactV pvid) st.baseIri
    .ok { st with
      propIds := st.propIds.filter (· ≠ propertyId),
      domainEdges := st.domainEdges.filter (fun e => e.1 ≠ propertyId ∧ e.2 ≠ propertyId),
      rangeEdges := st.rangeEdges.filter (fun e => e.1 ≠ propertyId ∧ e.2 ≠ propertyId) }

/-- `Class.removeProperty(property, deleteOwned)` (`src/src/class.ts` lines
340–360): resolves the ref (string refs through `Class.getProperty`, failing
with `ResourceNotFoundError` when unresolved), deletes the id from the class's
own-property cache, removes the property's domain edge to this class, and —
when the property's domain set became empty and `deleteOwned` is set —
removes the property from the vocabulary. -/
def classRemoveProperty (st : VocabState) (fuel : Nat) (cid : String) (property : PropRef)
    (deleteOwned : Bool := false) : Except VocabError VocabState := do
  let pvidOpt ← match property with
    | .str s => classGetProperty st fuel cid s
    | .res pvid => pure (some pvid)
  match pvidOpt with
  | none =>
    .error (.resourceNotFoundError (match property with | .str s => s | .res v => v) "Property")
  | some pvid =>
    let delId := expandS (compactV pvid) st.baseIri
    let st1 := { st with classes := st.classes.map (fun c =>
      if c.id = cid then { c with ownProps := c.ownProps.filter (· ≠ delId) } else c) }
    let st2 := removeDomain st1 pvid cid
    if (domainsOf st2 pvid).length = 0 && deleteOwned then
      vocabRemoveProperty st2 pvid
    else
      .ok st2

/-- A `string | Class` argument (`ClassReference`): a raw id string or a
resolved `Class` object. -/
inductive ClassRef where
  | str (s : String)
  | cls (c : ClassState)
  deriving DecidableEq, Repr

/-- `Instance.isInstanceOf(classReference)` (`src/src/instance.ts` lines
430–441): expands the reference id (for an object, the compact `.id` getter
re-expanded) and checks the instance's class cache, else asks each cached
class whether it is a descendant of the reference
(`isDescendantOf`: some ancestor's expanded id equals the reference id). -/
def isInstanceOfSt (st : VocabState) (fuel : Nat) (inst : InstanceState)
    (classReference : ClassRef) : Bool :=
  let classId := match classReference with
    | .str s => expandS s st.baseIri
    | .cls c => expandS (compactV c.id) st.baseIri
  inst.clsCache.contains classId ||
    inst.clsCache.any (fun cc =>
      (ancestorsF st.subEdges fuel cc).any
        (fun a => expandS (compactV a) st.baseIri = classId))

/-- `Class.properties` (`src/src/class.ts` lines 85–99): the own-property
cache entries, then each parent's `properties` recursively (no
deduplication), as expanded property vertex ids. -/
def classPropsF (st : VocabState) : Nat → String → List String
  | 0, _ => []
  | n + 1, cid =>
    (match st.classes.find? (fun c => c.id = cid) with
     | some c => c.ownProps
     | none => []) ++
    ((parentsOf st.subEdges cid).map (fun p => classPropsF st n p)).flatten

/-- `Instance.setClass(classReference)` (`src/src/instance.ts` lines
491–526): resolves the reference (string through `Vocabulary.getClass`, else
`ResourceNotFoundError`), no-ops when the instance is already (transitively)
typed by it; else adds the type edge, registers the class in the cache, and
creates an `InstanceProperty` for every property reachable through the class
that is not yet in the property cache. -/
def instSetClass (st : VocabState) (fuel : Nat) (inst : InstanceState)
    (classReference : ClassRef) : Except VocabError InstanceState := do
  let classType ← match classReference with
    | .str s =>
      match getClassSt st s with
      | some c => pure c
      | none => .error (.resourceNotFoundError s "Class")
    | .cls c => pure c
  if isInstanceOfSt st fuel inst (.cls classType) then
    .ok inst
  else
    let classId := expandS (compactV classType.id) st.baseIri
    let inst1 : InstanceState := { inst with
      vtypes := if inst.vtypes.contains classId then inst.vtypes else inst.vtypes ++ [classId],
      clsCache := inst.clsCache ++ [classId] }
    .ok { inst1 with
      propCache := (classPropsF st fuel classType.id).foldl (fun pc pvid =>
        let propertyId := expandS (compactV pvid) st.baseIri
        if pc.contains propertyId then pc else pc ++ [propertyId]) inst1.propCache }

/-- `Instance.removeClass(classReference)` (`src/src/instance.ts` lines
449–484): resolves the reference, requires an `rdfs:Class` resource, no-ops
when the instance is not (transitively) an instance of it, throws
`InstanceClassRequiredError` when the vertex has exactly one type left (the
throw precedes every mutation, so the instance is unchanged); otherwise
removes the type edge and the class-cache entry, and for every property of
the removed class that is no longer reachable through a remaining cached
class, removes the stored outgoing references, the literal attribute, and
the property-cache entry. -/
def instRemoveClass (st : VocabState) (fuel : Nat) (inst : InstanceState)
    (classReference : ClassRef) : Except VocabError InstanceState := do
  let classType ← match classReference with
    | .str s =>
      match getClassSt st s with
      | some c => pure c
      | none => .error (.resourceNotFoundError s "Class")
    | .cls c => pure c
  if ¬ classType.rtypes.contains "rdfs:Class" then
    .error (.resourceTypeMismatchError (compactV classType.id) "Class" "")
  else if ¬ isInstanceOfSt st fuel inst (.cls classType) then
    .ok inst
  else if inst.vtypes.length = 1 then
    .error (.instanceClassRequiredError (compactS inst.vid st.baseIri))
  else
    let classId := expandS (compactV classType.id) st.baseIri
    let inst1 : InstanceState := { inst with
      vtypes := inst.vtypes.filter (· ≠ classId),
      clsCache := inst.clsCache.filter (· ≠ classId) }
    .ok ((classPropsF st fuel classType.id).foldl (fun acc pvid =>
      let propertyId := expandS (compactV pvid) st.baseIri
      if ¬ acc.clsCache.any (fun cc => hasPropertySt st fuel cc (.res pvid)) then
        { acc with
          outEdges := acc.outEdges.filter (fun e => e.1 ≠ propertyId),
          attrs := acc.attrs.filter (· ≠ propertyId),
          propCache := acc.propCache.filter (· ≠ propertyId) }
      else acc) inst1)

/-- `Vocabulary.createInstance(id, ...classTypes)` (`src/src/vocabulary.ts`
lines 204–241): expands the id with validation, rejects an id registered as
an instance with `DuplicateInstanceError`, requires at least one class
reference, resolves each (string through `getClass`, else
`ResourceNotFoundError`), creates the store vertex (the store interface
documents no duplicate-id rejection for `createVertex`), applies `setClass`
for each resolved class, and registers the instance.  No check against the
class, property or data type registries is performed. -/
def createInstance (st : VocabState) (fuel : Nat) (id : String)
    (classTypes : List ClassRef) : Except VocabError VocabState :=
  if id = "" then .error (.referenceError "Invalid id")
  else do
    let instanceId ← Id.expand id st.baseIri true
    if hasInstanceSt st instanceId then
      .error (.duplicateInstanceError id)
    else if classTypes.isEmpty then
      .error (.referenceError "Invalid classType")
    else do
      let classRefs ← classTypes.mapM (fun ct =>
        match ct with
        | .str s =>
          match getClassSt st s with
          | some c => pure c
          | none => .error (.resourceNotFoundError s "Class")
        | .cls c => pure c)
      let inst0 : InstanceState := ⟨instanceId, [], [], [], [], []⟩
      let inst ← classRefs.foldlM (fun acc c => instSetClass st fuel acc (.cls c)) inst0
      .ok { st with insts := st.insts ++ [inst] }

/-- Domain/range scenario: classes `A0`, `B0` and property `p0` whose domain
already contains `A0`. -/
def c7st : VocabState :=
  ⟨"http://e/", [⟨"vocab:A0", ["rdfs:Class"], []⟩, ⟨"vocab:B0", ["rdfs:Class"], []⟩],
   ["vocab:p0"], [], dataTypeAll, [("vocab:p0", "vocab:A0")], [], []⟩

theorem c7_counterexample :
    setDomain c7st "vocab:p0" [.str "A0", .str "B0"] = .ok c7st ∧
    ("vocab:p0", "vocab:B0") ∉ c7st.domainEdges :=
  ⟨by decide, by decide⟩

theorem setDomain_union (refs : List ResRef) (rids : List String) :
    ∀ (st : VocabState) (pvid : String),
    List.Forall₂ (fun r i => refResourceId st r = Except.ok i) refs rids →
    (∀ i ∈ rids, hasResourceSt st i = true) →
    (∀ i ∈ rids, ¬ ∃ e ∈ st.domainEdges, e.1 = pvid ∧ e.2 = i) →
    rids.Nodup →
    setDomain st pvid refs =
      .ok { st with domainEdges := st.domainEdges ++ rids.map (fun i => (pvid, i)) } := by
  induction refs generalizing rids with
  | nil =>
    intro st pvid hres _ _ _
    cases hres
    simp [setDomain]
  | cons r rest ih =>
    intro st pvid hres hknown habsent hnodup
    cases hres with
    | cons hr hrest =>
      rename_i i ris
      have hks : hasResourceSt st i = true := hknown i (by simp)
      have habs : ¬ st.domainEdges.any (fun e => e.1 = pvid ∧ e.2 = i) = true := by
        intro h
        obtain ⟨e, he, hp⟩ := List.any_eq_true.mp h
        exact habsent i (by simp) ⟨e, he, by simpa using hp⟩
      unfold setDomain
      rw [hr]
      simp only [bind, Except.bind]
      rw [if_neg (by simp [hks]), if_neg habs]
      have := ih ris { st with domainEdges := st.domainEdges ++ [(pvid, i)] } pvid
        (by
          refine List.Forall₂.imp ?_ hrest
          intro a b hab
          exact hab)
        (fun j hj => hknown j (by simp [hj]))
        (fun j hj => by
          rintro ⟨e, he, h1, h2⟩
          rcases List.mem_append.mp he with h | h
          · exact habsent j (by simp [hj]) ⟨e, h, h1, h2⟩
          · simp only [List.mem_singleton] at h
            subst h
            simp at h2
            rw [← h2] at hj
            exact (List.nodup_cons.mp hnodup).1 hj)
        (List.nodup_cons.mp hnodup).2
      rw [this]
      simp [List.append_assoc]

theorem setRange_union (refs : List ResRef) (rids : List String) :
    ∀ (st : VocabState) (pvid : String),
    List.Forall₂ (fun r i => refResourceId st r = Except.ok i) refs rids →
    (∀ i ∈ rids, (hasResourceSt st i || hasDataTypeSt st i) = true) →
    (∀ i ∈ rids, ¬ ∃ e ∈ st.rangeEdges, e.1 = pvid ∧ e.2 = i) →
    rids.Nodup →
    setRange st pvid refs =
      .ok { st with rangeEdges := st.rangeEdges ++ rids.map (fun i => (pvid, i)) } := by
  induction refs generalizing rids with
  | nil =>
    intro st pvid hres _ _ _
    cases hres
    simp [setRange]
  | cons r rest ih =>
    intro st pvid hres hknown habsent hnodup
    cases hres with
    | cons hr hrest =>
      rename_i i ris
      have hks : (hasResourceSt st i || hasDataTypeSt st i) = true := hknown i (by simp)
      have habs : ¬ st.rangeEdges.any (fun e => e.1 = pvid ∧ e.2 = i) = true := by
        intro h
        obtain ⟨e, he, hp⟩ := List.any_eq_true.mp h
        exact habsent i (by simp) ⟨e, he, by simpa using hp⟩
      unfold setRange
      rw [hr]
      simp only [bind, Except.bind]
      rw [if_neg (by simp_all), if_neg habs]
      have := ih ris { st with rangeEdges := st.rangeEdges ++ [(pvid, i)] } pvid
        (by
          refine List.Forall₂.imp ?_ hrest
          intro a b hab
          exact hab)
        (fun j hj => hknown j (by simp [hj]))
        (fun j hj => by
          rintro ⟨e, he, h1, h2⟩
          rcases List.mem_append.mp he with h | h
          · exact habsent j (by simp [hj]) ⟨e, h, h1, h2⟩
          · simp only [List.mem_singleton] at h
            subst h
            simp at h2
            rw [← h2] at hj
            exact (List.nodup_cons.mp hnodup).1 hj)
        (List.nodup_cons.mp hnodup).2
      rw [this]
      simp [List.append_assoc]

/-- Claim C7 (corrected): `setDomain`/`setRange` resolve each ref
(`ResourceNotFoundError` when a ref does not resolve to a known resource, or
for range a data type); when none of the resolved refs is already present in
the edge set (and the refs are distinct), every ref is added, so the result
is the union of the prior edge set and the given refs.  However the calls are
idempotent per call, not per ref: on encountering a ref that is already
present, the loop's bare `return` ends the whole call, leaving every
remaining ref unprocessed (see the counterexample). -/
theorem c7_amended :
    (∀ (refs : List ResRef) (rids : List String) (st : VocabState) (pvid : String),
      List.Forall₂ (fun r i => refResourceId st r = Except.ok i) refs rids →
      (∀ i ∈ rids, hasResourceSt st i = true) →
      (∀ i ∈ rids, ¬ ∃ e ∈ st.domainEdges, e.1 = pvid ∧ e.2 = i) →
      rids.Nodup →
      setDomain st pvid refs =
        .ok { st with domainEdges := st.domainEdges ++ rids.map (fun i => (pvid, i)) }) ∧
    (∀ (st : VocabState) (pvid : String) (r : ResRef) (rest : List ResRef) (rid : String),
      refResourceId st r = .ok rid → hasResourceSt st rid = false →
      setDomain st pvid (r :: rest) = .error (.resourceNotFoundError rid "Resource")) ∧
    (∀ (st : VocabState) (pvid : String) (r : ResRef) (rest : List ResRef) (rid : String),
      refResourceId st r = .ok rid → hasResourceSt st rid = true →
      (∃ e ∈ st.domainEdges, e.1 = pvid ∧ e.2 = rid) →
      setDomain st pvid (r :: rest) = .ok st) ∧
    (∀ (refs : List ResRef) (rids : List String) (st : VocabState) (pvid : String),
      List.Forall₂ (fun r i => refResourceId st r = Except.ok i) refs rids →
      (∀ i ∈ rids, (hasResourceSt st i || hasDataTypeSt st i) = true) →
      (∀ i ∈ rids, ¬ ∃ e ∈ st.rangeEdges, e.1 = pvid ∧ e.2 = i) →
      rids.Nodup →
      setRange st pvid refs =
        .ok { st with rangeEdges := st.rangeEdges ++ rids.map (fun i => (pvid, i)) }) ∧
    (∀ (st : VocabState) (pvid : String) (r : ResRef) (rest : List ResRef) (rid : String),
      refResourceId st r = .ok rid → (hasResourceSt st rid || hasDataTypeSt st rid) = false →
      setRange st pvid (r :: rest) = .error (.resourceNotFoundError rid "Resource")) := by
  refine ⟨setDomain_union, ?_, ?_, setRange_union, ?_⟩
  · intro st pvid r rest rid hr hk
    unfold setDomain
    rw [hr]
    simp only [bind, Except.bind]
    rw [if_pos (by simp [hk])]
  · intro st pvid r rest rid hr hk hmem
    unfold setDomain
    rw [hr]
    simp only [bind, Except.bind]
    rw [if_neg (by simp [hk]), if_pos (by
      obtain ⟨e, he, h1, h2⟩ := hmem
      exact List.any_eq_true.mpr ⟨e, he, by simp [h1, h2]⟩)]
  · intro st pvid r rest rid hr hk
    unfold setRange
    rw [hr]
    simp only [bind, Except.bind]
    rw [if_pos (by simp [hk])]

/-- Witness for `c7_amended`: adding two fresh domain refs `A0`, `B0` to a
property with an empty domain yields both edges; a ref that resolves to an
unregistered resource raises `ResourceNotFoundError`. -/
theorem c7_witness :
    setDomain ⟨"http://e/", [⟨"vocab:A0", ["rdfs:Class"], []⟩, ⟨"vocab:B0", ["rdfs:Class"], []⟩],
        ["vocab:p0"], [], dataTypeAll, [], [], []⟩ "vocab:p0" [.str "A0", .str "B0"] =
      .ok ⟨"http://e/", [⟨"vocab:A0", ["rdfs:Class"], []⟩, ⟨"vocab:B0", ["rdfs:Class"], []⟩],
        ["vocab:p0"], [], dataTypeAll, [("vocab:p0", "vocab:A0"), ("vocab:p0", "vocab:B0")], [], []⟩ ∧
    setDomain c7st "vocab:p0" [.str "Zz"] = .error (.resourceNotFoundError "vocab:Zz" "Resource") := by
  constructor
  · exact c7_amended.1 [.str "A0", .str "B0"] ["vocab:A0", "vocab:B0"] _ "vocab:p0"
      (List.Forall₂.cons (by decide) (List.Forall₂.cons (by decide) List.Forall₂.nil))
      (by decide) (by decide) (by decide)
  · exact c7_amended.2.1 c7st "vocab:p0" (.str "Zz") [] "vocab:Zz" (by decide) (by decide)

/-- The shared-property scenario of the claim: classes `A0` and `B0`, a
property `p0`, `p0.setDomain(A0, B0)` with the class objects, then
`A0.removeProperty(p0)`. -/
def c4run : Except VocabError VocabState := do
  let st0 : VocabState := ⟨"http://e/", [], [], [], dataTypeAll, [], [], []⟩
  let st1 ← createClass st0 "A0"
  let st2 ← createClass st1 "B0"
  let st3 ← createProperty st2 "p0"
  let st4 ← setDomain st3 "vocab:p0" [.res "vocab:A0", .res "vocab:B0"]
  classRemoveProperty st4 5 "vocab:A0" (.res "vocab:p0") false

/-- Claim C4, counterexample: in the claim's own scenario — domain
`{A0, B0}` established via `setDomain(A0, B0)`, then `A0.removeProperty(p0)`
— the property does remain in the vocabulary with `B0` still in its domain,
but `B0.hasProperty(p0)` returns `false`, not `true`: `setDomain` adds only
graph edges and never updates the classes' own-property caches, which
`hasProperty` consults. -/
theorem c4_counterexample :
    c4run.map (fun st => hasPropertySt st 5 "vocab:B0" (.res "vocab:p0")) = .ok false ∧
    c4run.map (fun st => domainsOf st "vocab:p0") = .ok ["vocab:B0"] ∧
    c4run.map (fun st => st.propIds) = .ok ["vocab:p0"] :=
  ⟨by decide, by decide, by decide⟩

/-- The class-cache update performed by `Class.removeProperty`:
`this._properties.delete(identity.expand(propertyRef.id, base))`. -/
def delOwnProp (st : VocabState) (cid pid : String) : VocabState :=
  { st with classes := st.classes.map (fun c => if c.id = cid then { c with ownProps := c.ownProps.filter (· ≠ pid) } else c) }

theorem classRemoveProperty_res_eq (st : VocabState) (fuel : Nat) (cid pvid : String) (d : Bool) :
    classRemoveProperty st fuel cid (.res pvid) d =
      (let st2 := removeDomain (delOwnProp st cid (expandS (compactV pvid) st.baseIri)) pvid cid
       if (domainsOf st2 pvid).length = 0 && d then vocabRemoveProperty st2 pvid
       else .ok st2) := by
  simp only [classRemoveProperty, delOwnProp, bind, Except.bind, pure, Except.pure]

/-- Claim C4 (corrected), part of the amended statement in general form:
for a property with a remaining domain class `B` distinct from `A`,
`A.removeProperty(P)` (any `deleteOwned`) succeeds, detaches `P` only from
`A` — the `(P, B)` domain edge survives and the `(P, A)` edge is gone — and
leaves the property registry untouched; `setDomain` never changes any class
wrapper (in particular no own-property cache), which is why
`B.hasProperty(P)` stays `false` in the claim's scenario; and a property
disappears from the registry through `Class.removeProperty` only when
`deleteOwned` was set and its domain edge set became empty. -/
theorem c4_amended :
    (∀ (st : VocabState) (fuel : Nat) (aVid bVid pvid : String) (d : Bool),
      (pvid, expandS (compactV bVid) st.baseIri) ∈ st.domainEdges →
      expandS (compactV bVid) st.baseIri ≠ expandS (compactV aVid) st.baseIri →
      ∃ st', classRemoveProperty st fuel aVid (.res pvid) d = .ok st' ∧
        (pvid, expandS (compactV bVid) st.baseIri) ∈ st'.domainEdges ∧
        (pvid, expandS (compactV aVid) st.baseIri) ∉ st'.domainEdges ∧
        st'.propIds = st.propIds) ∧
    (∀ (st : VocabState) (pvid : String) (refs : List ResRef) (st' : VocabState),
      setDomain st pvid refs = .ok st' → st'.classes = st.classes) ∧
    (∀ (st : VocabState) (fuel : Nat) (cid pvid : String) (d : Bool) (st' : VocabState),
      classRemoveProperty st fuel cid (.res pvid) d = .ok st' →
      expandS (compactV pvid) st.baseIri ∉ st'.propIds →
      expandS (compactV pvid) st.baseIri ∈ st.propIds →
      d = true ∧ domainsOf st' pvid = []) := by
  refine ⟨?_, ?_, ?_⟩
  · intro st fuel aVid bVid pvid d hmem hne
    rw [classRemoveProperty_res_eq]
    set st2 := removeDomain (delOwnProp st aVid (expandS (compactV pvid) st.baseIri)) pvid aVid with hst2
    have hmem2 : (pvid, expandS (compactV bVid) st.baseIri) ∈ st2.domainEdges := by
      rw [hst2]
      simp only [removeDomain, delOwnProp]
      exact List.mem_filter.mpr ⟨hmem, by simp [hne]⟩
    have hlen : (domainsOf st2 pvid).length ≠ 0 := by
      intro h0
      rw [List.length_eq_zero] at h0
      have : expandS (compactV bVid) st.baseIri ∈ domainsOf st2 pvid := by
        simp only [domainsOf]
        exact List.mem_map.mpr ⟨_, List.mem_filter.mpr ⟨hmem2, by simp⟩, rfl⟩
      rw [h0] at this
      simp at this
    refine ⟨st2, ?_, hmem2, ?_, ?_⟩
    · simp only [Bool.and_eq_true, decide_eq_true_eq]
      rw [if_neg (by intro hc; exact hlen (by simpa using hc.1))]
    · intro hctr
      rw [hst2] at hctr
      simp only [removeDomain, delOwnProp] at hctr
      have := (List.mem_filter.mp hctr).2
      simp at this
    · rfl
  · intro st pvid refs
    induction refs generalizing st with
    | nil =>
      intro st' h
      simp only [setDomain] at h
      cases h
      rfl
    | cons r rest ih =>
      intro st' h
      simp only [setDomain, bind, Except.bind] at h
      cases hr : refResourceId st r with
      | error e => rw [hr] at h; cases h
      | ok rid =>
        rw [hr] at h
        simp only [] at h
        by_cases hk : hasResourceSt st rid = true
        · rw [if_neg (by simp [hk])] at h
          by_cases hp : (st.domainEdges.any fun e => decide (e.1 = pvid ∧ e.2 = rid)) = true
          · rw [if_pos hp] at h
            cases h
            rfl
          · rw [if_neg hp] at h
            exact ih { st with domainEdges := st.domainEdges ++ [(pvid, rid)] } st' h
        · rw [if_pos (by simpa using hk)] at h
          cases h
  · intro st fuel cid pvid d st' h hnot hin
    rw [classRemoveProperty_res_eq] at h
    set st2 := removeDomain (delOwnProp st cid (expandS (compactV pvid) st.baseIri)) pvid cid with hst2
    by_cases hcond : ((domainsOf st2 pvid).length = 0 ∧ d = true)
    · refine ⟨hcond.2, ?_⟩
      rw [if_pos (by simp [hcond.1, hcond.2])] at h
      simp only [vocabRemoveProperty] at h
      rw [if_neg (by simp [hcond.1])] at h
      obtain rfl : st' = _ := (Except.ok.inj h).symm
      simp only [domainsOf]
      rw [List.map_eq_nil_iff, List.filter_eq_nil_iff]
      intro e he
      have he2 : e ∈ st2.domainEdges := List.mem_of_mem_filter he
      have hnil : st2.domainEdges.filter (fun e => e.1 = pvid) = [] := by
        have := hcond.1
        simp only [domainsOf, List.length_map] at this
        exact List.length_eq_zero.mp this
      intro hep
      have : e ∈ st2.domainEdges.filter (fun e => e.1 = pvid) :=
        List.mem_filter.mpr ⟨he2, by simpa using hep⟩
      rw [hnil] at this
      simp at this
    · rw [if_neg (by
        simp only [Bool.and_eq_true, decide_eq_true_eq]
        intro hc
        exact hcond ⟨hc.1, hc.2⟩)] at h
      obtain rfl : st' = st2 := (Except.ok.inj h).symm
      exact absurd hin hnot



/-- State for the `c4_amended` witness: `p0` with domain `{A0, B0}`. -/
def c4st : VocabState :=
  ⟨"http://e/", [⟨"vocab:A0", ["rdfs:Class"], []⟩, ⟨"vocab:B0", ["rdfs:Class"], []⟩],
   ["vocab:p0"], [], dataTypeAll,
   [("vocab:p0", "vocab:A0"), ("vocab:p0", "vocab:B0")], [], []⟩

/-- Witness for `c4_amended` at the concrete shared-property state. -/
theorem c4_witness :
    classRemoveProperty c4st 5 "vocab:A0" (.res "vocab:p0") false =
      .ok ⟨"http://e/", [⟨"vocab:A0", ["rdfs:Class"], []⟩, ⟨"vocab:B0", ["rdfs:Class"], []⟩],
        ["vocab:p0"], [], dataTypeAll, [("vocab:p0", "vocab:B0")], [], []⟩ := by
  obtain ⟨st', h1, h2, h3, h4⟩ :=
    c4_amended.1 c4st 5 "vocab:A0" "vocab:B0" "vocab:p0" false (by decide) (by decide)
  have he : classRemoveProperty c4st 5 "vocab:A0" (.res "vocab:p0") false =
      .ok ⟨"http://e/", [⟨"vocab:A0", ["rdfs:Class"], []⟩, ⟨"vocab:B0", ["rdfs:Class"], []⟩],
        ["vocab:p0"], [], dataTypeAll, [("vocab:p0", "vocab:B0")], [], []⟩ := by decide
  exact he

/-- A vocabulary with classes `Thing` and `Person` registered. -/
def c5st : VocabState :=
  ⟨"http://e/", [⟨"vocab:Thing", ["rdfs:Class"], []⟩, ⟨"vocab:Person", ["rdfs:Class"], []⟩],
   [], [], dataTypeAll, [], [], []⟩

/-- Claim C5, counterexample: `createInstance` with an id that collides with
the registered class `Person` does not throw — it succeeds and registers the
instance under the class's id.  Only `createClass` and `createProperty`
check the resource/data-type/instance registries; `createInstance` checks
the instance registry alone. -/
theorem c5_counterexample :
    hasResourceSt c5st "Person" = true ∧
    createInstance c5st 5 "Person" [.str "Thing"] =
      .ok { c5st with insts := [⟨"vocab:Person", ["vocab:Thing"], [], [], ["vocab:Thing"], []⟩] } :=
  ⟨by decide, by decide⟩

theorem c5_amended :
    (∀ (st : VocabState) (id classId normalizedId : String),
      Id.expand id st.baseIri = .ok classId →
      Id.expand classId st.baseIri true = .ok normalizedId →
      (st.classes.any (fun c => c.id = classId) = true ∨
        hasResourceSt st normalizedId = true ∨ hasDataTypeSt st normalizedId = true ∨
        hasInstanceSt st normalizedId = true) →
      (createClass st id = .error (.duplicateResourceError id) ∨
        createClass st id = .error (.duplicateResourceError classId))) ∧
    (∀ (st : VocabState) (id propertyId expandedId : String),
      Id.expand id st.baseIri = .ok propertyId →
      Id.expand id st.baseIri true = .ok expandedId →
      (st.propIds.contains propertyId = true ∨ hasResourceSt st expandedId = true ∨
        hasDataTypeSt st expandedId = true ∨ hasInstanceSt st expandedId = true) →
      createProperty st id = .error (.duplicateResourceError id)) ∧
    (∀ (st : VocabState) (fuel : Nat) (id : String) (cts : List ClassRef) (instanceId : String),
      Id.expand id st.baseIri true = .ok instanceId →
      hasInstanceSt st instanceId = true →
      createInstance st fuel id cts = .error (.duplicateInstanceError id)) ∧
    (∀ (st : VocabState) (fuel : Nat) (id s : String) (c : ClassState) (instanceId : String),
      Id.expand id st.baseIri true = .ok instanceId →
      hasInstanceSt st instanceId = false →
      getClassSt st s = some c →
      ∃ st', createInstance st fuel id [.str s] = .ok st') := by
  have hid_ne : ∀ (id base : String) (v : Bool) (r : String),
      Id.expand id base v = .ok r → id ≠ "" := by
    intro id base v r h hcon
    rw [hcon] at h
    simp [Id.expand] at h
  refine ⟨?_, ?_, ?_, ?_⟩
  · intro st id classId normalizedId h1 h2 hcoll
    unfold createClass
    rw [if_neg (by simpa using hid_ne id st.baseIri false classId h1)]
    simp only [bind, Except.bind]
    rw [h1]
    dsimp only
    by_cases hc : st.classes.any (fun c => c.id = classId) = true
    · rw [if_pos hc]
      exact Or.inl rfl
    · rw [if_neg hc, h2]
      dsimp only
      rcases hcoll with h | h | h | h
      · exact absurd h hc
      all_goals
        rw [if_pos (by simp [h])]
        exact Or.inr rfl
  · intro st id propertyId expandedId h1 h2 hcoll
    unfold createProperty
    rw [if_neg (by simpa using hid_ne id st.baseIri false propertyId h1)]
    simp only [bind, Except.bind]
    rw [h1]
    dsimp only
    by_cases hc : st.propIds.contains propertyId = true
    · rw [if_pos hc]
    · rw [if_neg hc, h2]
      dsimp only
      rcases hcoll with h | h | h | h
      · exact absurd h hc
      all_goals rw [if_pos (by simp [h])]
  · intro st fuel id cts instanceId h1 h2
    unfold createInstance
    rw [if_neg (by simpa using hid_ne id st.baseIri true instanceId h1)]
    simp only [bind, Except.bind]
    rw [h1]
    dsimp only
    rw [if_pos h2]
  · intro st fuel id s c instanceId h1 h2 h3
    unfold createInstance
    rw [if_neg (by simpa using hid_ne id st.baseIri true instanceId h1)]
    simp only [bind, Except.bind]
    rw [h1]
    dsimp only
    rw [if_neg (by simp [h2]), if_neg (by simp)]
    simp only [List.mapM, List.mapM.loop, h3, pure, Except.pure, List.reverse_nil,
      List.reverse_cons, List.nil_append]
    simp only [List.foldlM, instSetClass, bind, Except.bind, pure, Except.pure]
    exact ⟨_, rfl⟩

/-- Witness for `c5_amended`: concrete duplicate rejections for
`createClass` (class/data-type collisions), `createProperty`, and
`createInstance` (instance collision), plus a successful `createInstance`. -/
theorem c5_witness :
    (createClass c5st "Person" = .error (.duplicateResourceError "Person") ∨
      createClass c5st "Person" = .error (.duplicateResourceError "vocab:Person")) ∧
    createProperty c5st "Person" = .error (.duplicateResourceError "Person") ∧
    createInstance ⟨"http://e/", [⟨"vocab:Thing", ["rdfs:Class"], []⟩], [],
        [⟨"vocab:i0", ["vocab:Thing"], [], [], ["vocab:Thing"], []⟩], dataTypeAll, [], [], []⟩
        5 "i0" [.str "Thing"] = .error (.duplicateInstanceError "i0") ∧
    ∃ st', createInstance c5st 5 "i0" [.str "Thing"] = .ok st' := by
  refine ⟨?_, ?_, ?_, ?_⟩
  · exact c5_amended.1 c5st "Person" "vocab:Person" "vocab:Person" (by decide) (by decide)
      (Or.inl (by decide))
  · exact c5_amended.2.1 c5st "Person" "vocab:Person" "vocab:Person" (by decide) (by decide)
      (Or.inr (Or.inl (by decide)))
  · exact c5_amended.2.2.1 _ 5 "i0" [.str "Thing"] "vocab:i0" (by decide) (by decide)
  · exact c5_amended.2.2.2 c5st 5 "i0" "Thing" ⟨"vocab:Thing", ["rdfs:Class"], []⟩ "vocab:i0"
      (by decide) (by decide) (by decide)


theorem foldl_vtypes_invariant (f : InstanceState → String → InstanceState)
    (hf : ∀ acc p, (f acc p).vtypes = acc.vtypes) :
    ∀ (l : List String) (i : InstanceState), (l.foldl f i).vtypes = i.vtypes := by
  intro l
  induction l with
  | nil => intro i; rfl
  | cons p rest ih =>
    intro i
    simp only [List.foldl_cons]
    rw [ih, hf]

theorem filter_ne_length_ge {l : List String} {a : String} (h : l.Nodup) :
    l.length ≤ (l.filter (· ≠ a)).length + 1 := by
  have heq : List.filter (fun x => decide (x ≠ a)) l = l.erase a := by
    rw [List.Nodup.erase_eq_filter h a]
    apply List.filter_congr
    intro x _
    by_cases hxa : x = a
    · subst hxa; simp
    · simp [hxa]
  rw [show (l.filter (· ≠ a)) = l.erase a from heq]
  by_cases hm : a ∈ l
  · rw [List.length_erase_of_mem hm]
    have h1 : 0 < l.length := List.length_pos.mpr (by intro hh; rw [hh] at hm; simp at hm)
    omega
  · rw [List.erase_of_not_mem hm]
    omega

/-- Claim C1 (confirmed): `Instance.removeClass` on the last class throws.
If the class reference resolves (a `Class` object, or a string resolving
through `Vocabulary.getClass`), is typed `rdfs:Class`, the instance is an
instance of it, and the instance vertex has exactly one type, then
`removeClass` throws `InstanceClassRequiredError` — and since the throw
precedes every mutation in the source, the type set, class map and stored
property values are unchanged (the `.error` result carries no mutated
state).  Moreover `removeClass` never produces an instance with zero
classes: whenever it returns an instance, a non-empty vertex type set stays
non-empty (type ids are a set, hence `Nodup`). -/
theorem c1_theorem :
    (∀ (st : VocabState) (fuel : Nat) (inst : InstanceState) (ref : ClassRef) (c : ClassState),
      (ref = .cls c ∨ ∃ s, ref = .str s ∧ getClassSt st s = some c) →
      c.rtypes.contains "rdfs:Class" = true →
      isInstanceOfSt st fuel inst (.cls c) = true →
      inst.vtypes.length = 1 →
      instRemoveClass st fuel inst ref =
        .error (.instanceClassRequiredError (compactS inst.vid st.baseIri))) ∧
    (∀ (st : VocabState) (fuel : Nat) (inst : InstanceState) (ref : ClassRef)
        (inst' : InstanceState),
      inst.vtypes.Nodup → 1 ≤ inst.vtypes.length →
      instRemoveClass st fuel inst ref = .ok inst' → 1 ≤ inst'.vtypes.length) := by
  constructor
  · intro st fuel inst ref c href hcls hinst hlen
    rcases href with rfl | ⟨s, rfl, hget⟩
    · unfold instRemoveClass
      simp only [bind, Except.bind, pure, Except.pure]
      try dsimp only
      have hmem : "rdfs:Class" ∈ c.rtypes := by simpa using hcls
      rw [if_neg (by simp [hmem]), if_neg (by simp [hinst]), if_pos hlen]
    · unfold instRemoveClass
      simp only [bind, Except.bind, pure, Except.pure]
      rw [hget]
      try dsimp only
      have hmem : "rdfs:Class" ∈ c.rtypes := by simpa using hcls
      rw [if_neg (by simp [hmem]), if_neg (by simp [hinst]), if_pos hlen]
  · intro st fuel inst ref inst' hnodup hlen h
    rcases ref with s | c
    · unfold instRemoveClass at h
      simp only [bind, Except.bind, pure, Except.pure] at h
      cases hget : getClassSt st s with
      | none => rw [hget] at h; cases h
      | some c =>
        rw [hget] at h
        try dsimp only at h
        split at h
        · cases h
        split at h
        · obtain rfl : inst = inst' := Except.ok.inj h
          exact hlen
        split at h
        · cases h
        next h3 =>
          obtain rfl : inst' = _ := (Except.ok.inj h).symm
          rw [foldl_vtypes_invariant _ (fun acc p => by
            rcases Bool.eq_false_or_eq_true
              (acc.clsCache.any (fun cc => hasPropertySt st fuel cc (.res p))) with hb | hb <;>
              simp [hb])]
          have hf := filter_ne_length_ge (a := expandS (compactV c.id) st.baseIri) hnodup
          have h2len : inst.vtypes.length ≠ 1 := h3
          dsimp only
          omega
    · unfold instRemoveClass at h
      simp only [bind, Except.bind, pure, Except.pure] at h
      try dsimp only at h
      split at h
      · cases h
      split at h
      · obtain rfl : inst = inst' := Except.ok.inj h
        exact hlen
      split at h
      · cases h
      next h3 =>
        obtain rfl : inst' = _ := (Except.ok.inj h).symm
        rw [foldl_vtypes_invariant _ (fun acc p => by
          rcases Bool.eq_false_or_eq_true
            (acc.clsCache.any (fun cc => hasPropertySt st fuel cc (.res p))) with hb | hb <;>
            simp [hb])]
        have hf := filter_ne_length_ge (a := expandS (compactV c.id) st.baseIri) hnodup
        have h2len : inst.vtypes.length ≠ 1 := h3
        dsimp only
        omega

/-- Concrete vocabulary for the C1 witness: one class `Person`. -/
def c1st : VocabState :=
  ⟨"http://e/", [⟨"vocab:Person", ["rdfs:Class"], []⟩], [], [], dataTypeAll, [], [], []⟩

/-- An instance typed by `Person` alone. -/
def c1inst : InstanceState :=
  ⟨"vocab:i0", ["vocab:Person"], [], [], ["vocab:Person"], []⟩

/-- An instance typed by `Person` and `Agent`. -/
def c1inst2 : InstanceState :=
  ⟨"vocab:i1", ["vocab:Person", "vocab:Agent"], [], [], ["vocab:Person", "vocab:Agent"], []⟩

/-- The result of removing `Person` from `c1inst2`. -/
def c1inst2res : InstanceState :=
  ⟨"vocab:i1", ["vocab:Agent"], [], [], ["vocab:Agent"], []⟩

theorem c1_witness :
    instRemoveClass c1st 1 c1inst (.str "Person") =
      .error (.instanceClassRequiredError (compactS c1inst.vid c1st.baseIri)) ∧
    1 ≤ c1inst2res.vtypes.length :=
  ⟨c1_theorem.1 c1st 1 c1inst (.str "Person") ⟨"vocab:Person", ["rdfs:Class"], []⟩
      (Or.inr ⟨"Person", rfl, by decide⟩) (by decide) (by decide) (by decide),
   c1_theorem.2 c1st 1 c1inst2 (.str "Person") c1inst2res (by decide) (by decide) (by decide)⟩

/-! ## Document (`src/src/document.ts`)

A `Document` owns an independent graph store and its own `_instances`
registry.  We model the part relevant to lookups and removal: the store's
vertex id set, its edge set as `(label, fromVertexId, toVertexId)` triples,
and the registry key set (identified with vertex ids).  The owning
vocabulary enters only through the `VocabState` passed to the lookup
functions. -/

/-- The document-owned part of the state: graph vertices, graph edges
`(label, from, to)`, and the `_instances` registry keys. -/
structure DocState where
  verts : List String
  edges : List (String × String × String)
  reg : List String
  deriving DecidableEq, Repr

/-- `Document.getInstance(id)` (`src/src/document.ts` lines 124–134):
`ReferenceError` on an empty id; `InstanceNotFoundError` whenever the id
names a vocabulary resource (class or property) or a vocabulary-level
instance — checked before the document registry is consulted — else the
registry lookup result (possibly absent). -/
def docGetInstance (vst : VocabState) (d : DocState) (id : String) :
    Except VocabError (Option String) :=
  if id = "" then .error (.referenceError "Invalid id")
  else if hasResourceSt vst id || hasInstanceSt vst id then
    .error (.instanceNotFoundError id)
  else .ok (d.reg.find? (· = id))

/-- `Document.hasInstance(id)` (`src/src/document.ts` lines 230–240):
`ReferenceError` on an empty id; `false` whenever the id names a vocabulary
resource or vocabulary-level instance, before the registry is consulted;
else registry membership. -/
def docHasInstance (vst : VocabState) (d : DocState) (id : String) :
    Except VocabError Bool :=
  if id = "" then .error (.referenceError "Invalid id")
  else if hasResourceSt vst id || hasInstanceSt vst id then .ok false
  else .ok (d.reg.contains id)

/-- Claim C10 (confirmed): for every non-empty id that names a vocabulary
class or property (`hasResource`) or a vocabulary-level instance
(`hasInstance`), `Document.getInstance` throws `InstanceNotFoundError` and
`Document.hasInstance` returns `false` — for every document state, in
particular one whose own registry holds an entry under that id: the
vocabulary check precedes the registry lookup in both methods. -/
theorem c10_theorem (vst : VocabState) (d : DocState) (id : String)
    (hid : id ≠ "")
    (hshadow : hasResourceSt vst id = true ∨ hasInstanceSt vst id = true) :
    docGetInstance vst d id = .error (.instanceNotFoundError id) ∧
    docHasInstance vst d id = .ok false := by
  have hcond : (hasResourceSt vst id || hasInstanceSt vst id) = true := by
    rcases hshadow with h | h <;> simp [h]
  constructor
  · unfold docGetInstance
    rw [if_neg hid, if_pos hcond]
  · unfold docHasInstance
    rw [if_neg hid, if_pos hcond]

/-- A document registry holding an entry under the class id `Person`
registered in `c1st`. -/
def c10doc : DocState := ⟨["Person"], [], ["Person"]⟩

theorem c10_witness :
    docGetInstance c1st c10doc "Person" =
      .error (.instanceNotFoundError "Person") ∧
    docHasInstance c1st c10doc "Person" = .ok false :=
  c10_theorem c1st c10doc "Person" (by decide) (Or.inl (by decide))

/-! ### `Document.removeInstance` and `_removeInstanceRecursive`

`_removeInstanceRecursive` (`src/src/document.ts` lines 334–349) is
recursive through the graph; we give it explicit fuel (recursion depth
budget).  Each visited vertex enters the tracker before its outgoing-edge
snapshot is processed, so the recursion depth is bounded by the number of
distinct vertex ids; `removeInstanceDoc` passes fuel exceeding that bound.
The list walk over the snapshot is factored into `removeRecList`,
parameterised by the recursive step so that it is structurally recursive. -/

/-- Modelled from the spec: the graph store's `removeVertex(id)` (spec §6)
removes the vertex and its incident edges; the document additionally
deletes the registry entry right after every `removeVertex` call, so the
two are combined here. -/
def removeVertexD (st : DocState) (vid : String) : DocState :=
  ⟨st.verts.filter (· ≠ vid),
   st.edges.filter (fun e => e.2.1 ≠ vid ∧ e.2.2 ≠ vid),
   st.reg.filter (· ≠ vid)⟩

/-- `vertex.getIncoming().count()`: the number of edges into `t`. -/
def incomingCount (st : DocState) (t : String) : Nat :=
  (st.edges.filter (fun e => e.2.2 = t)).length

/-- The loop body of `_removeInstanceRecursive` over the outgoing-edge
snapshot: detach the edge (`toVertex.removeIncoming(label, fromId)`), and
when the target is left with zero incoming edges, recurse into it via
`step`. -/
def removeRecList (step : DocState → String → List String → DocState × List String) :
    DocState → List String → List (String × String × String) → DocState × List String
  | st, tr, [] => (st, tr)
  | st, tr, e :: rest =>
    let st1 : DocState := ⟨st.verts, st.edges.filter (· ≠ e), st.reg⟩
    let r := if incomingCount st1 e.2.2 = 0 then step st1 e.2.2 tr else (st1, tr)
    removeRecList step r.1 r.2 rest

/-- `Document._removeInstanceRecursive(instanceV, tracker)` with fuel:
return on a tracker hit; else add the vertex to the tracker, process the
snapshot of its outgoing edges, then remove the vertex (and its registry
entry). -/
def removeRec : Nat → DocState → String → List String → DocState × List String
  | 0, st, _, tr => (st, tr)
  | n + 1, st, vid, tr =>
    if vid ∈ tr then (st, tr)
    else
      let r := removeRecList (removeRec n) st (vid :: tr)
        (st.edges.filter (fun e => e.2.1 = vid))
      (removeVertexD r.1 vid, r.2)

/-- `Document.removeInstance(ref, recursive)` (`src/src/document.ts` lines
304–322): `ReferenceError` on an empty reference; non-recursive removes the
vertex and the registry entry; recursive returns unchanged when the vertex
does not exist, else runs `_removeInstanceRecursive` with a fresh tracker
and deletes the (already deleted) registry entry once more. -/
def removeInstanceDoc (st : DocState) (instanceId : String) (recursive : Bool) :
    Except VocabError DocState :=
  if instanceId = "" then .error (.referenceError "Invalid instanceReference")
  else if recursive = false then .ok (removeVertexD st instanceId)
  else if ¬ st.verts.contains instanceId then .ok st
  else
    let r := (removeRec (st.verts.length + st.edges.length + 1) st instanceId []).1
    .ok ⟨r.verts, r.edges, r.reg.filter (· ≠ instanceId)⟩


/-- `removeVertexD` only removes vertices. -/
theorem removeVertexD_verts_sub (st : DocState) (v : String) :
    (removeVertexD st v).verts ⊆ st.verts :=
  fun x hx => List.mem_of_mem_filter hx

/-- `removeVertexD` only removes edges. -/
theorem removeVertexD_edges_sub (st : DocState) (v : String) :
    (removeVertexD st v).edges ⊆ st.edges :=
  fun x hx => List.mem_of_mem_filter hx

/-- The snapshot walk only removes vertices (given that the step does). -/
theorem removeRecList_verts_mono
    (step : DocState → String → List String → DocState × List String)
    (hstep : ∀ st t tr, (step st t tr).1.verts ⊆ st.verts) :
    ∀ (es : List (String × String × String)) (st : DocState) (tr : List String),
      (removeRecList step st tr es).1.verts ⊆ st.verts := by
  intro es
  induction es with
  | nil => intro st tr; exact fun x hx => hx
  | cons e rest ih =>
    intro st tr
    simp only [removeRecList]
    by_cases hc : incomingCount ⟨st.verts, st.edges.filter (· ≠ e), st.reg⟩ e.2.2 = 0
    · rw [if_pos hc]
      intro x hx
      have h1 := ih _ _ hx
      have h2 := hstep _ _ _ h1
      exact h2
    · rw [if_neg hc]
      intro x hx
      have h1 := ih _ _ hx
      exact h1

/-- The snapshot walk only removes edges (given that the step does). -/
theorem removeRecList_edges_mono
    (step : DocState → String → List String → DocState × List String)
    (hstep : ∀ st t tr, (step st t tr).1.edges ⊆ st.edges) :
    ∀ (es : List (String × String × String)) (st : DocState) (tr : List String),
      (removeRecList step st tr es).1.edges ⊆ st.edges := by
  intro es
  induction es with
  | nil => intro st tr; exact fun x hx => hx
  | cons e rest ih =>
    intro st tr
    simp only [removeRecList]
    by_cases hc : incomingCount ⟨st.verts, st.edges.filter (· ≠ e), st.reg⟩ e.2.2 = 0
    · rw [if_pos hc]
      intro x hx
      have h1 := ih _ _ hx
      have h2 := hstep _ _ _ h1
      exact List.mem_of_mem_filter h2
    · rw [if_neg hc]
      intro x hx
      have h1 := ih _ _ hx
      exact List.mem_of_mem_filter h1

/-- `_removeInstanceRecursive` only removes vertices. -/
theorem removeRec_verts_mono :
    ∀ (n : Nat) (st : DocState) (vid : String) (tr : List String),
      (removeRec n st vid tr).1.verts ⊆ st.verts := by
  intro n
  induction n with
  | zero => intro st vid tr; exact fun x hx => hx
  | succ n ih =>
    intro st vid tr
    simp only [removeRec]
    by_cases hm : vid ∈ tr
    · rw [if_pos hm]; exact fun x hx => hx
    · rw [if_neg hm]
      intro x hx
      have h1 := removeVertexD_verts_sub _ _ hx
      exact removeRecList_verts_mono (removeRec n) (fun st t tr => ih st t tr) _ _ _ h1

/-- `_removeInstanceRecursive` only removes edges. -/
theorem removeRec_edges_mono :
    ∀ (n : Nat) (st : DocState) (vid : String) (tr : List String),
      (removeRec n st vid tr).1.edges ⊆ st.edges := by
  intro n
  induction n with
  | zero => intro st vid tr; exact fun x hx => hx
  | succ n ih =>
    intro st vid tr
    simp only [removeRec]
    by_cases hm : vid ∈ tr
    · rw [if_pos hm]; exact fun x hx => hx
    · rw [if_neg hm]
      intro x hx
      have h1 := removeVertexD_edges_sub _ _ hx
      exact removeRecList_edges_mono (removeRec n) (fun st t tr => ih st t tr) _ _ _ h1

/-- The snapshot walk only grows the tracker (given that the step does). -/
theorem removeRecList_tr_mono
    (step : DocState → String → List String → DocState × List String)
    (hstep : ∀ st t tr, tr ⊆ (step st t tr).2) :
    ∀ (es : List (String × String × String)) (st : DocState) (tr : List String),
      tr ⊆ (removeRecList step st tr es).2 := by
  intro es
  induction es with
  | nil => intro st tr; exact fun x hx => hx
  | cons e rest ih =>
    intro st tr
    simp only [removeRecList]
    by_cases hc : incomingCount ⟨st.verts, st.edges.filter (· ≠ e), st.reg⟩ e.2.2 = 0
    · rw [if_pos hc]
      intro x hx
      have h1 := hstep ⟨st.verts, st.edges.filter (· ≠ e), st.reg⟩ e.2.2 tr hx
      have h2 := ih (step ⟨st.verts, st.edges.filter (· ≠ e), st.reg⟩ e.2.2 tr).1
        (step ⟨st.verts, st.edges.filter (· ≠ e), st.reg⟩ e.2.2 tr).2 h1
      exact h2
    · rw [if_neg hc]
      intro x hx
      have h2 := ih ⟨st.verts, st.edges.filter (· ≠ e), st.reg⟩ tr hx
      exact h2

/-- `_removeInstanceRecursive` only grows the tracker. -/
theorem removeRec_tr_mono :
    ∀ (n : Nat) (st : DocState) (vid : String) (tr : List String),
      tr ⊆ (removeRec n st vid tr).2 := by
  intro n
  induction n with
  | zero => intro st vid tr; exact fun x hx => hx
  | succ n ih =>
    intro st vid tr
    simp only [removeRec]
    by_cases hm : vid ∈ tr
    · rw [if_pos hm]; exact fun x hx => hx
    · rw [if_neg hm]
      intro x hx
      exact removeRecList_tr_mono (removeRec n) (fun st t tr => ih st t tr) _ _ _
        (List.mem_cons_of_mem _ hx)

/-- A vertex whose frame is entered (tracker miss, positive fuel) is removed
from the vertex set and the registry. -/
theorem removeRec_root (n : Nat) (st : DocState) (vid : String) (tr : List String)
    (h : vid ∉ tr) :
    vid ∉ (removeRec (n + 1) st vid tr).1.verts ∧
    vid ∉ (removeRec (n + 1) st vid tr).1.reg := by
  simp only [removeRec, if_neg h]
  constructor
  · intro hx
    have := List.of_mem_filter hx
    simp at this
  · intro hx
    have := List.of_mem_filter hx
    simp at this


/-- Every id the snapshot walk adds to the tracker is removed from the
vertex set (given that the step has the same property). -/
theorem removeRecList_tracked_removed
    (step : DocState → String → List String → DocState × List String)
    (hmono : ∀ st t tr, (step st t tr).1.verts ⊆ st.verts)
    (hstep : ∀ st t tr x, x ∈ (step st t tr).2 →
      x ∈ tr ∨ x ∉ (step st t tr).1.verts) :
    ∀ (es : List (String × String × String)) (st : DocState) (tr : List String)
      (x : String), x ∈ (removeRecList step st tr es).2 →
      x ∈ tr ∨ x ∉ (removeRecList step st tr es).1.verts := by
  intro es
  induction es with
  | nil => intro st tr x hx; exact Or.inl hx
  | cons e rest ih =>
    intro st tr x hx
    simp only [removeRecList] at hx ⊢
    by_cases hc : incomingCount ⟨st.verts, st.edges.filter (· ≠ e), st.reg⟩ e.2.2 = 0
    · rw [if_pos hc] at hx ⊢
      rcases ih _ _ _ hx with h1 | h1
      · rcases hstep _ _ _ _ h1 with h2 | h2
        · exact Or.inl h2
        · refine Or.inr (fun hm => h2 ?_)
          exact removeRecList_verts_mono step hmono _ _ _ hm
      · exact Or.inr h1
    · rw [if_neg hc] at hx ⊢
      rcases ih _ _ _ hx with h1 | h1
      · exact Or.inl h1
      · exact Or.inr h1

/-- Every id `_removeInstanceRecursive` adds to the tracker is removed from
the vertex set. -/
theorem removeRec_tracked_removed :
    ∀ (n : Nat) (st : DocState) (vid : String) (tr : List String) (x : String),
      x ∈ (removeRec n st vid tr).2 →
      x ∈ tr ∨ x ∉ (removeRec n st vid tr).1.verts := by
  intro n
  induction n with
  | zero => intro st vid tr x hx; exact Or.inl hx
  | succ n ih =>
    intro st vid tr x hx
    simp only [removeRec] at hx ⊢
    by_cases hm : vid ∈ tr
    · rw [if_pos hm] at hx ⊢; exact Or.inl hx
    · rw [if_neg hm] at hx ⊢
      rcases removeRecList_tracked_removed (removeRec n)
          (fun st t tr => removeRec_verts_mono n st t tr)
          (fun st t tr x hx => ih st t tr x hx) _ _ _ _ hx with h1 | h1
      · rcases List.mem_cons.mp h1 with rfl | h2
        · refine Or.inr (fun hmem => ?_)
          have := List.of_mem_filter hmem
          simp at this
        · exact Or.inl h2
      · refine Or.inr (fun hmem => h1 ?_)
        exact removeVertexD_verts_sub _ _ hmem

/-- An edge whose source is already in the tracker is never detached by the
snapshot walk: it survives unless its target vertex is removed (given that
the step has the same property and the walked edges have other sources). -/
theorem removeRecList_keep_tracked
    (step : DocState → String → List String → DocState × List String)
    (hvmono : ∀ st t tr, (step st t tr).1.verts ⊆ st.verts)
    (htrmono : ∀ st t tr, tr ⊆ (step st t tr).2)
    (hstep : ∀ st t tr l a b, (l, a, b) ∈ st.edges → a ∈ tr →
      (l, a, b) ∈ (step st t tr).1.edges ∨ b ∉ (step st t tr).1.verts) :
    ∀ (es : List (String × String × String)) (st : DocState) (tr : List String)
      (l a b : String), (l, a, b) ∈ st.edges → a ∈ tr → (∀ e ∈ es, e.2.1 ≠ a) →
      (l, a, b) ∈ (removeRecList step st tr es).1.edges ∨
      b ∉ (removeRecList step st tr es).1.verts := by
  intro es
  induction es with
  | nil => intro st tr l a b he _ _; exact Or.inl he
  | cons e rest ih =>
    intro st tr l a b he ha hsrc
    have hne : (l, a, b) ≠ e := by
      intro hEq
      exact hsrc e (List.mem_cons_self e rest) (by rw [← hEq])
    have he1 : (l, a, b) ∈ st.edges.filter (· ≠ e) :=
      List.mem_filter.mpr ⟨he, by simpa using hne⟩
    simp only [removeRecList]
    by_cases hc : incomingCount ⟨st.verts, st.edges.filter (· ≠ e), st.reg⟩ e.2.2 = 0
    · rw [if_pos hc]
      rcases hstep ⟨st.verts, st.edges.filter (· ≠ e), st.reg⟩ e.2.2 tr l a b he1 ha
          with h1 | h1
      · rcases ih _ _ l a b h1 (htrmono _ _ _ ha)
            (fun d hd => hsrc d (List.mem_cons_of_mem _ hd)) with h2 | h2
        · exact Or.inl h2
        · exact Or.inr h2
      · refine Or.inr (fun hm => h1 ?_)
        exact removeRecList_verts_mono step hvmono _ _ _ hm
    · rw [if_neg hc]
      rcases ih ⟨st.verts, st.edges.filter (· ≠ e), st.reg⟩ tr l a b he1 ha
          (fun d hd => hsrc d (List.mem_cons_of_mem _ hd)) with h2 | h2
      · exact Or.inl h2
      · exact Or.inr h2

/-- An edge whose source is already tracked when `_removeInstanceRecursive`
is entered survives the call unless its target vertex is removed. -/
theorem removeRec_keep_tracked :
    ∀ (n : Nat) (st : DocState) (vid : String) (tr : List String) (l a b : String),
      (l, a, b) ∈ st.edges → a ∈ tr →
      (l, a, b) ∈ (removeRec n st vid tr).1.edges ∨
      b ∉ (removeRec n st vid tr).1.verts := by
  intro n
  induction n with
  | zero => intro st vid tr l a b he _; exact Or.inl he
  | succ n ih =>
    intro st vid tr l a b he ha
    simp only [removeRec]
    by_cases hm : vid ∈ tr
    · rw [if_pos hm]; exact Or.inl he
    · rw [if_neg hm]
      have hsrc : ∀ e ∈ st.edges.filter (fun e => e.2.1 = vid), e.2.1 ≠ a := by
        intro e hd
        have := List.of_mem_filter hd
        have hv : e.2.1 = vid := by simpa using this
        rw [hv]
        intro hEq
        exact hm (hEq ▸ ha)
      rcases removeRecList_keep_tracked (removeRec n)
          (fun st t tr => removeRec_verts_mono n st t tr)
          (fun st t tr => removeRec_tr_mono n st t tr)
          (fun st t tr l a b he ha => ih st t tr l a b he ha)
          _ st (vid :: tr) l a b he (List.mem_cons_of_mem _ ha) hsrc with h1 | h1
      · by_cases hb : b = vid
        · refine Or.inr (fun hmem => ?_)
          have := List.of_mem_filter hmem
          rw [hb] at this
          simp at this
        · refine Or.inl (List.mem_filter.mpr ⟨h1, ?_⟩)
          have hav : a ≠ vid := fun hEq => hm (hEq ▸ ha)
          simp [hav, hb]
      · refine Or.inr (fun hmem => h1 ?_)
        exact removeVertexD_verts_sub _ _ hmem


/-- Survivor property, snapshot-walk part: an edge whose source vertex
survives the whole walk is never detached, and its target (if initially
present and distinct from every recursion root) also survives — whenever
the fuel-`n` recursion has the same property and the walked edges have
sources other than `s`. -/
theorem removeRecList_survivor (n : Nat)
    (IH : ∀ (st : DocState) (vid : String) (tr : List String) (l s j : String),
      (l, s, j) ∈ st.edges → j ≠ vid →
      s ∈ (removeRec n st vid tr).1.verts →
      (l, s, j) ∈ (removeRec n st vid tr).1.edges ∧
      (j ∈ st.verts → j ∈ (removeRec n st vid tr).1.verts)) :
    ∀ (es : List (String × String × String)) (st : DocState) (tr : List String)
      (l s j : String), (l, s, j) ∈ st.edges → (∀ e ∈ es, e.2.1 ≠ s) →
      s ∈ (removeRecList (removeRec n) st tr es).1.verts →
      (l, s, j) ∈ (removeRecList (removeRec n) st tr es).1.edges ∧
      (j ∈ st.verts → j ∈ (removeRecList (removeRec n) st tr es).1.verts) := by
  intro es
  induction es with
  | nil => intro st tr l s j he _ _; exact ⟨he, fun hj => hj⟩
  | cons e rest ih =>
    intro st tr l s j he hsrc hs
    have hne : (l, s, j) ≠ e := by
      intro hEq
      exact hsrc e (List.mem_cons_self e rest) (by rw [← hEq])
    have he1 : (l, s, j) ∈ st.edges.filter (· ≠ e) :=
      List.mem_filter.mpr ⟨he, by simpa using hne⟩
    simp only [removeRecList] at hs ⊢
    by_cases hc : incomingCount ⟨st.verts, st.edges.filter (· ≠ e), st.reg⟩ e.2.2 = 0
    · rw [if_pos hc] at hs ⊢
      by_cases hej : e.2.2 = j
      · exfalso
        have hmem : (l, s, j) ∈
            (st.edges.filter (· ≠ e)).filter (fun d => d.2.2 = e.2.2) := by
          refine List.mem_filter.mpr ⟨he1, ?_⟩
          simp [hej]
        have : 0 < incomingCount ⟨st.verts, st.edges.filter (· ≠ e), st.reg⟩ e.2.2 :=
          List.length_pos.mpr (fun hnil => by rw [hnil] at hmem; cases hmem)
        omega
      · have hs1 : s ∈ (removeRec n ⟨st.verts, st.edges.filter (· ≠ e), st.reg⟩
            e.2.2 tr).1.verts := by
          have h1 := removeRecList_verts_mono (removeRec n)
            (fun st t tr => removeRec_verts_mono n st t tr) _ _ _ hs
          exact h1
        have hstep := IH ⟨st.verts, st.edges.filter (· ≠ e), st.reg⟩ e.2.2 tr l s j
          he1 (fun hEq => hej hEq.symm) hs1
        have hrest := ih _ _ l s j hstep.1
          (fun d hd => hsrc d (List.mem_cons_of_mem _ hd)) hs
        refine ⟨hrest.1, fun hj => hrest.2 (hstep.2 hj)⟩
    · rw [if_neg hc] at hs ⊢
      have hrest := ih ⟨st.verts, st.edges.filter (· ≠ e), st.reg⟩ tr l s j he1
        (fun d hd => hsrc d (List.mem_cons_of_mem _ hd)) hs
      exact ⟨hrest.1, fun hj => hrest.2 hj⟩

/-- Survivor property of `_removeInstanceRecursive`: an edge `(l, s, j)`
whose source `s` survives the call is never detached, and its target `j`
(if present and distinct from the call's root) survives too. -/
theorem removeRec_survivor :
    ∀ (n : Nat) (st : DocState) (vid : String) (tr : List String) (l s j : String),
      (l, s, j) ∈ st.edges → j ≠ vid →
      s ∈ (removeRec n st vid tr).1.verts →
      (l, s, j) ∈ (removeRec n st vid tr).1.edges ∧
      (j ∈ st.verts → j ∈ (removeRec n st vid tr).1.verts) := by
  intro n
  induction n with
  | zero => intro st vid tr l s j he _ _; exact ⟨he, fun hj => hj⟩
  | succ n ih =>
    intro st vid tr l s j he hj hs
    simp only [removeRec] at hs ⊢
    by_cases hm : vid ∈ tr
    · rw [if_pos hm] at hs ⊢; exact ⟨he, fun hjm => hjm⟩
    · rw [if_neg hm] at hs ⊢
      have hsv : s ≠ vid := by
        have := List.of_mem_filter hs
        simpa using this
      have hsL : s ∈ (removeRecList (removeRec n) st (vid :: tr)
          (st.edges.filter (fun e => e.2.1 = vid))).1.verts :=
        List.mem_of_mem_filter hs
      have hsrc : ∀ e ∈ st.edges.filter (fun e => e.2.1 = vid), e.2.1 ≠ s := by
        intro e hd
        have hv : e.2.1 = vid := by simpa using List.of_mem_filter hd
        rw [hv]
        exact fun hEq => hsv hEq.symm
      have hL := removeRecList_survivor n
        (fun st vid tr l s j he hj hs => ih st vid tr l s j he hj hs)
        _ st (vid :: tr) l s j he hsrc hsL
      constructor
      · refine List.mem_filter.mpr ⟨hL.1, ?_⟩
        simp [hsv, hj]
      · intro hjm
        refine List.mem_filter.mpr ⟨hL.2 hjm, ?_⟩
        simp [hj]


/-- Cascade property, snapshot-walk part: if every edge into `t` is still in
the remaining worklist, at least one such edge exists, every worklist edge
has a tracked source, and `t` is untracked, then the walk removes `t`
(positive fuel): the step for `t`'s last incoming edge finds the incoming
count at zero and recurses into `t`. -/
theorem removeRecList_cascade (n : Nat) (hn : 1 ≤ n) :
    ∀ (es : List (String × String × String)) (st : DocState) (tr : List String)
      (t : String), t ∉ tr →
      (∀ e ∈ st.edges, e.2.2 = t → e ∈ es) →
      (∃ e ∈ st.edges, e.2.2 = t) →
      (∀ e ∈ es, e.2.1 ∈ tr) →
      t ∉ (removeRecList (removeRec n) st tr es).1.verts := by
  intro es
  induction es with
  | nil =>
    intro st tr t _ hcov hex _
    obtain ⟨d, hd, hdt⟩ := hex
    exact absurd (hcov d hd hdt) (List.not_mem_nil d)
  | cons e rest ih =>
    intro st tr t ht hcov hex hsrc
    simp only [removeRecList]
    obtain ⟨m, rfl⟩ : ∃ m, n = m + 1 := ⟨n - 1, by omega⟩
    by_cases hc : incomingCount ⟨st.verts, st.edges.filter (· ≠ e), st.reg⟩ e.2.2 = 0
    · rw [if_pos hc]
      by_cases het : e.2.2 = t
      · -- the recursion enters `t` itself and removes it
        rw [het]
        have hroot := removeRec_root m ⟨st.verts, st.edges.filter (· ≠ e), st.reg⟩ t tr ht
        intro hmem
        exact hroot.1 (removeRecList_verts_mono (removeRec (m + 1))
          (fun st t tr => removeRec_verts_mono (m + 1) st t tr) _ _ _ hmem)
      · -- recursion into some other target; `t`'s incoming edges survive it
        by_cases htv : t ∈ (removeRec (m + 1) ⟨st.verts, st.edges.filter (· ≠ e), st.reg⟩
            e.2.2 tr).1.verts
        · -- `t` not removed by the subcall: re-establish the invariants
          have htr2 : t ∉ (removeRec (m + 1) ⟨st.verts, st.edges.filter (· ≠ e), st.reg⟩
              e.2.2 tr).2 := by
            intro htr
            rcases removeRec_tracked_removed (m + 1) _ _ _ _ htr with h1 | h1
            · exact ht h1
            · exact h1 htv
          refine ih _ _ t htr2 ?_ ?_ ?_
          · intro d hd hdt
            have hd1 : d ∈ st.edges.filter (· ≠ e) := removeRec_edges_mono (m + 1) _ _ _ hd
            have hd2 : d ∈ st.edges := List.mem_of_mem_filter hd1
            have hdne : d ≠ e := by simpa using (List.of_mem_filter hd1)
            rcases List.mem_cons.mp (hcov d hd2 hdt) with hEq | hmem
            · exact absurd hEq hdne
            · exact hmem
          · obtain ⟨d, hd, hdt⟩ := hex
            have hdne : d ≠ e := fun hEq => het (by rw [← hEq, hdt])
            have hd1 : d ∈ st.edges.filter (· ≠ e) :=
              List.mem_filter.mpr ⟨hd, by simpa using hdne⟩
            have hdsrc : d.2.1 ∈ tr := hsrc d (hcov d hd hdt)
            obtain ⟨d1, d2, d3⟩ := d
            rcases removeRec_keep_tracked (m + 1)
                ⟨st.verts, st.edges.filter (· ≠ e), st.reg⟩ e.2.2 tr d1 d2 d3 hd1 hdsrc
              with h1 | h1
            · exact ⟨(d1, d2, d3), h1, hdt⟩
            · have hd3 : d3 = t := hdt
              rw [hd3] at h1
              exact absurd htv h1
          · intro d hd
            have h1 := hsrc d (List.mem_cons_of_mem _ hd)
            exact removeRec_tr_mono (m + 1) _ _ _ h1
        · -- `t` already removed by the subcall
          intro hmem
          exact htv (removeRecList_verts_mono (removeRec (m + 1))
            (fun st t tr => removeRec_verts_mono (m + 1) st t tr) _ _ _ hmem)
    · rw [if_neg hc]
      refine ih _ _ t ht ?_ ?_ ?_
      · intro d hd hdt
        have hd2 : d ∈ st.edges := List.mem_of_mem_filter hd
        have hdne : d ≠ e := by simpa using (List.of_mem_filter hd)
        rcases List.mem_cons.mp (hcov d hd2 hdt) with hEq | hmem
        · exact absurd hEq hdne
        · exact hmem
      · by_cases het : e.2.2 = t
        · have hpos : 0 < incomingCount ⟨st.verts, st.edges.filter (· ≠ e), st.reg⟩
              e.2.2 := Nat.pos_of_ne_zero hc
          obtain ⟨d, hd⟩ := List.exists_mem_of_length_pos hpos
          have hd1 : d ∈ st.edges.filter (· ≠ e) := List.mem_of_mem_filter hd
          have hdt : d.2.2 = e.2.2 := by simpa using (List.of_mem_filter hd)
          exact ⟨d, hd1, by rw [hdt, het]⟩
        · obtain ⟨d, hd, hdt⟩ := hex
          have hdne : d ≠ e := fun hEq => het (by rw [← hEq, hdt])
          exact ⟨d, List.mem_filter.mpr ⟨hd, by simpa using hdne⟩, hdt⟩
      · intro d hd
        exact hsrc d (List.mem_cons_of_mem _ hd)


/-- Claim C3 (confirmed): `Document.removeInstance`.  (a) Non-recursive
removal deletes only the target's vertex and registry entry: the result is
exactly `removeVertexD st i`, and every other id keeps its vertex and
registry membership.  (b) Recursive removal removes the target itself.
(c) Cascade: a target `t ≠ i` with at least one incoming edge, all of whose
incoming edges come from `i`, is left with zero incoming edges by the
detach loop and is removed too.  (d) Survivor: an instance `j ≠ i` with an
incoming edge from an instance `s` outside the removed set (i.e. `s`
survives) itself survives. -/
theorem c3_theorem :
    (∀ (st : DocState) (i : String), i ≠ "" →
      removeInstanceDoc st i false = .ok (removeVertexD st i) ∧
      ∀ j, j ≠ i →
        ((j ∈ (removeVertexD st i).verts ↔ j ∈ st.verts) ∧
         (j ∈ (removeVertexD st i).reg ↔ j ∈ st.reg))) ∧
    (∀ (st : DocState) (i : String) (st' : DocState), i ≠ "" → i ∈ st.verts →
      removeInstanceDoc st i true = .ok st' → i ∉ st'.verts ∧ i ∉ st'.reg) ∧
    (∀ (st : DocState) (i t : String) (st' : DocState), i ≠ "" → i ∈ st.verts →
      t ≠ i → 0 < incomingCount st t →
      (∀ e ∈ st.edges, e.2.2 = t → e.2.1 = i) →
      removeInstanceDoc st i true = .ok st' → t ∉ st'.verts) ∧
    (∀ (st : DocState) (i : String) (st' : DocState) (l s j : String), i ≠ "" →
      removeInstanceDoc st i true = .ok st' → (l, s, j) ∈ st.edges → j ≠ i →
      s ∈ st'.verts → j ∈ st.verts → j ∈ st'.verts) := by
  refine ⟨?_, ?_, ?_, ?_⟩
  · intro st i hi
    constructor
    · unfold removeInstanceDoc
      rw [if_neg hi, if_pos rfl]
    · intro j hj
      constructor
      · constructor
        · intro hm; exact List.mem_of_mem_filter hm
        · intro hm; exact List.mem_filter.mpr ⟨hm, by simpa using hj⟩
      · constructor
        · intro hm; exact List.mem_of_mem_filter hm
        · intro hm; exact List.mem_filter.mpr ⟨hm, by simpa using hj⟩
  · intro st i st' hi hmem h
    unfold removeInstanceDoc at h
    rw [if_neg hi, if_neg (by simp), if_neg (not_not_intro (by simpa using hmem))] at h
    obtain rfl : st' = _ := (Except.ok.inj h).symm
    have hroot := removeRec_root (st.verts.length + st.edges.length) st i []
      (List.not_mem_nil i)
    refine ⟨hroot.1, ?_⟩
    intro hm
    have := List.of_mem_filter hm
    simp at this
  · intro st i t st' hi hmem ht hpos hall h
    unfold removeInstanceDoc at h
    rw [if_neg hi, if_neg (by simp), if_neg (not_not_intro (by simpa using hmem))] at h
    obtain rfl : st' = _ := (Except.ok.inj h).symm
    obtain ⟨d0, hd0⟩ := List.exists_mem_of_length_pos hpos
    have hd0e : d0 ∈ st.edges := List.mem_of_mem_filter hd0
    have hd0t : d0.2.2 = t := by simpa using List.of_mem_filter hd0
    have hlen : 1 ≤ st.edges.length :=
      List.length_pos.mpr (fun hnil => by rw [hnil] at hd0e; cases hd0e)
    have hv : 1 ≤ st.verts.length :=
      List.length_pos.mpr (fun hnil => by rw [hnil] at hmem; cases hmem)
    intro hmemT
    have hmemT2 : t ∈ (removeRec (st.verts.length + st.edges.length + 1) st i []).1.verts :=
      hmemT
    revert hmemT2
    show t ∉ _
    simp only [removeRec, if_neg (List.not_mem_nil i)]
    intro hmemT2
    have hmemT3 := removeVertexD_verts_sub _ _ hmemT2
    revert hmemT3
    refine removeRecList_cascade (st.verts.length + st.edges.length) (by omega)
      _ st [i] t (by simpa using ht) ?_ ⟨d0, hd0e, hd0t⟩ ?_
    · intro d hd hdt
      exact List.mem_filter.mpr ⟨hd, by simpa using hall d hd hdt⟩
    · intro d hd
      have : d.2.1 = i := by simpa using List.of_mem_filter hd
      simp [this]
  · intro st i st' l s j hi h he hj hs hjv
    unfold removeInstanceDoc at h
    rw [if_neg hi, if_neg (by simp)] at h
    by_cases hmem : st.verts.contains i
    · rw [if_neg (not_not_intro hmem)] at h
      obtain rfl : st' = _ := (Except.ok.inj h).symm
      have hsur := removeRec_survivor (st.verts.length + st.edges.length + 1)
        st i [] l s j he hj hs
      exact hsur.2 hjv
    · rw [if_pos hmem] at h
      obtain rfl : st' = st := (Except.ok.inj h).symm
      exact hjv

/-- Concrete document for the C3 witness: `i` references `a`, `a`
references `b`, and `c` also references `b`. -/
def c3st : DocState :=
  ⟨["i", "a", "b", "c"],
   [("p", "i", "a"), ("q", "a", "b"), ("r", "c", "b")],
   ["i", "a", "b", "c"]⟩

/-- The result of `removeInstance("i", true)` on `c3st`: `i` and the
unshared `a` are removed; `b` (still referenced by `c`) and `c` survive. -/
def c3res : DocState :=
  ⟨["b", "c"], [("r", "c", "b")], ["b", "c"]⟩

theorem c3_witness :
    removeInstanceDoc c3st "i" false = .ok (removeVertexD c3st "i") ∧
    ("a" ∈ (removeVertexD c3st "i").verts ↔ "a" ∈ c3st.verts) ∧
    ("i" ∉ c3res.verts ∧ "i" ∉ c3res.reg) ∧
    "a" ∉ c3res.verts ∧
    "b" ∈ c3res.verts :=
  ⟨(c3_theorem.1 c3st "i" (by decide)).1,
   ((c3_theorem.1 c3st "i" (by decide)).2 "a" (by decide)).1,
   c3_theorem.2.1 c3st "i" c3res (by decide) (by decide) (by decide),
   c3_theorem.2.2.1 c3st "i" "a" c3res (by decide) (by decide) (by decide)
     (by decide) (by decide) (by decide),
   c3_theorem.2.2.2 c3st "i" c3res "r" "c" "b" (by decide) (by decide)
     (by decide) (by decide) (by decide) (by decide)⟩

end JsonldVocab
